import Mathlib

set_option linter.unusedSectionVars false
set_option maxHeartbeats 1000000

/-!
Verification development for the `FunctionMaxima` data structure
(`src/function_maxima.h`): a dynamic partial function from a linearly
ordered argument type `A` to a linearly ordered value type `V`, kept in a
multiset ordered by argument (`function`), together with an incrementally
maintained secondary index (`maxima`) holding exactly the current local
maxima, ordered by (value descending, argument ascending).

The embedding below models each `std::multiset` as a sorted list, and
iterators as positions (indices) into those lists; `end()` is the index
`length`.  A second, fuel-instrumented embedding models the exception
behaviour: every comparison and allocation consumes one unit of fuel and
throws when the fuel is exhausted, which lets us quantify over "some
comparison or allocation throws at the N-th call".
-/

namespace FunctionMaxima

variable {A : Type*} {V : Type*} [LinearOrder A] [LinearOrder V]

/-- The observable state of a `FunctionMaxima<A, V>` object: the primary
point store (`function`, ordered by argument) and the maxima index
(`maxima`, ordered by `comp_by_maxima`).  Points are `(argument, value)`
pairs. -/
structure FM (A : Type*) (V : Type*) where
  function : List (A × V)
  maxima : List (A × V)
  deriving DecidableEq

/-- Embedding of `comp_by_arg` (src/function_maxima.h:162-177): compare two
points by argument. -/
def comp_by_arg (p q : A × V) : Bool :=
  decide (p.1 < q.1)

/-- Embedding of `comp_by_maxima` (src/function_maxima.h:179-183):
`p2.value() < p1.value() || (!(p1.value() < p2.value()) && p1.arg() < p2.arg())`. -/
def comp_by_maxima (p q : A × V) : Bool :=
  decide (q.2 < p.2) || (!decide (p.2 < q.2) && decide (p.1 < q.1))

/-- The non-strict order induced by `comp_by_maxima`: `p` is not strictly
after `q` in the maxima index.  The maxima listing is sorted with respect
to this relation. -/
def mLE (p q : A × V) : Prop :=
  comp_by_maxima q p = false

instance : DecidableRel (mLE (A := A) (V := V)) := fun p q => by
  unfold mLE; infer_instance

/-- Embedding of `maxima.insert(p)`: insertion into the maxima multiset, which keeps the
listing sorted with respect to `mLE`. -/
def mxInsert (p : A × V) (ms : List (A × V)) : List (A × V) :=
  List.orderedInsert mLE p ms

/-- Value comparison between the points at positions `i` and `j` of the
point store: `f[i].value() < f[j].value()` (`false` when a position is out
of range; all uses are in range). -/
def vLt (f : List (A × V)) (i j : Nat) : Bool :=
  match f[i]?, f[j]? with
  | some p, some q => decide (p.2 < q.2)
  | _, _ => false

/-- First half of `is_local_maximum` (src/function_maxima.h:191-202): the
check against the effective left neighbour of position `i`, skipping the
omitted position once. -/
def lm_left (f : List (A × V)) (i om : Nat) : Bool :=
  if i = 0 then true
  else if i - 1 ≠ om then !vLt f i (i - 1)
  else if i - 1 = 0 then true
  else !vLt f i (i - 2)

/-- Second half of `is_local_maximum` (src/function_maxima.h:206-216): the
check against the effective right neighbour of position `i`, skipping the
omitted position once. -/
def lm_right (f : List (A × V)) (i om : Nat) : Bool :=
  if i + 1 = f.length then true
  else if i + 1 ≠ om then !vLt f i (i + 1)
  else if i + 2 = f.length then true
  else !vLt f i (i + 2)

/-- Embedding of `is_local_maximum(it, omit_it)` (src/function_maxima.h:186-218).
`i` is the position of `it` in the argument-ordered store `f`, `om` the
position of `omit_it` (`om = f.length` encodes `end()`, i.e. nothing is
omitted). -/
def is_local_maximum (f : List (A × V)) (i om : Nat) : Bool :=
  if i = om then false
  else lm_left f i om && lm_right f i om

/-- The local-maximum predicate with nothing omitted (`omit_it = end()`). -/
def isLM (f : List (A × V)) (i : Nat) : Bool :=
  is_local_maximum f i f.length

/-- The points of the store that satisfy the local-maximum predicate, in
argument order.  Invariant I1 says the maxima index is exactly this set. -/
def localMaxPoints (f : List (A × V)) : List (A × V) :=
  (List.range f.length).filterMap (fun i => if isLM f i then f[i]? else none)

/-- Embedding of `stopped_being_maximum(cpy_it, omit_it, rollback)`
(src/function_maxima.h:220-232).  Returns the maxima index after the
possible re-registration insert, together with the entry that ceased to be
a maximum and must be erased later (`none` plays the role of `mx_end()`). -/
def stopped_being_maximum (f : List (A × V)) (ms : List (A × V)) (j om : Nat) :
    List (A × V) × Option (A × V) :=
  match f[j]? with
  | none => (ms, none)
  | some p =>
    if is_local_maximum f j om then
      (if p ∈ ms then ms else mxInsert p ms, none)
    else
      (ms, if p ∈ ms then some p else none)

/-- Embedding of `update_maxima(it, omit_it, rollback)` (src/function_maxima.h:241-272):
register position `i` if it is a local maximum, re-examine the effective
left and right neighbours (skipping `om` once, as `safe_decrement` /
`++cpy_it` do), and finally apply the two deferred erasures. -/
def update_maxima (f : List (A × V)) (ms : List (A × V)) (i om : Nat) :
    List (A × V) :=
  let ms1 :=
    if is_local_maximum f i om then
      match f[i]? with
      | some p => mxInsert p ms
      | none => ms
    else ms
  let lstep :=
    if i ≠ 0 then
      if i - 1 ≠ om then stopped_being_maximum f ms1 (i - 1) om
      else if i - 1 ≠ 0 then stopped_being_maximum f ms1 (i - 2) om
      else (ms1, none)
    else (ms1, none)
  let rstep :=
    if i + 1 ≠ f.length then
      if i + 1 ≠ om then stopped_being_maximum f lstep.1 (i + 1) om
      else if i + 2 ≠ f.length then stopped_being_maximum f lstep.1 (i + 2) om
      else (lstep.1, none)
    else (lstep.1, none)
  let ms4 := match lstep.2 with | some p => rstep.1.erase p | none => rstep.1
  match rstep.2 with | some p => ms4.erase p | none => ms4

/-- Embedding of `function.lower_bound(a)` as a position: the length of the longest
prefix whose arguments compare less than `a`. -/
def lowerBound (a : A) : List (A × V) → Nat
  | [] => 0
  | p :: t => if p.1 < a then lowerBound a t + 1 else 0

/-- Embedding of `function.find(a)` as a position: search in argument order, stopping
at the first element not less than `a`; found iff that element is
equivalent to `a` (neither less nor greater). -/
def findArg (a : A) : List (A × V) → Option Nat
  | [] => none
  | p :: t =>
    if p.1 < a then (findArg a t).map (· + 1)
    else if a < p.1 then none
    else some 0

/-- Embedding of `value_at(a)` (src/function_maxima.h:35-41).  `none` models throwing
`InvalidArg` (the spec's NotFound); the call never changes the state. -/
def value_at (s : FM A V) (a : A) : Option V :=
  match findArg a s.function with
  | some i => (s.function[i]?).map (·.2)
  | none => none

/-- Embedding of `size()` (src/function_maxima.h:98-100). -/
def size (s : FM A V) : Nat :=
  s.function.length

/-- Embedding of `erase(a)` (src/function_maxima.h:43-64), success path: locate the
point, note whether it is registered in the maxima index, run
`update_maxima` with the point itself omitted, then remove it from the
point store and (if registered) from the maxima index. -/
def erase (s : FM A V) (a : A) : FM A V :=
  match findArg a s.function with
  | none => s
  | some i =>
    match s.function[i]? with
    | none => s
    | some p =>
      let ms1 := update_maxima s.function s.maxima i i
      { function := s.function.eraseIdx i,
        maxima := if p ∈ s.maxima then ms1.erase p else ms1 }

/-- Embedding of `set_value(a, v)` (src/function_maxima.h:66-96), success path: insert
the new point just before `lower_bound(a)`; if an equivalent point was
already there (`diff`), run `update_maxima` with the old point omitted and
then remove the old point from both indices, otherwise run `update_maxima`
with nothing omitted. -/
def set_value (s : FM A V) (a : A) (v : V) : FM A V :=
  let f := s.function
  let pos := lowerBound a f
  let f1 := f.insertIdx pos (a, v)
  match f[pos]? with
  | none =>
    { function := f1, maxima := update_maxima f1 s.maxima pos f1.length }
  | some prev =>
    if a < prev.1 then
      { function := f1, maxima := update_maxima f1 s.maxima pos f1.length }
    else
      let ms1 := update_maxima f1 s.maxima pos (pos + 1)
      { function := f1.eraseIdx (pos + 1),
        maxima := if prev ∈ s.maxima then ms1.erase prev else ms1 }

/-- The default-constructed object (src/function_maxima.h:122). -/
def emptyFM : FM A V := ⟨[], []⟩

/-- The states reachable from the empty structure through the two mutating
operations. -/
inductive Reachable : FM A V → Prop
  | empty : Reachable emptyFM
  | step_set (a : A) (v : V) {s : FM A V} : Reachable s → Reachable (set_value s a v)
  | step_erase (a : A) {s : FM A V} : Reachable s → Reachable (erase s a)

/-- The point store is strictly sorted by argument. -/
def ArgSorted (f : List (A × V)) : Prop :=
  List.Pairwise (fun p q => p.1 < q.1) f

/-- Specification-side effective predecessor (C3): the nearest position
before `i`, scanning backwards, that is not the omitted one. -/
def effPred (i om : Nat) : Option Nat :=
  ((List.range i).reverse).find? (fun j => decide (j ≠ om))

/-- Specification-side effective successor (C3): the nearest position after
`i` and before `len` that is not the omitted one. -/
def effSucc (len i om : Nat) : Option Nat :=
  (List.range' (i + 1) (len - (i + 1))).find? (fun j => decide (j ≠ om))

/-- The local-maximum predicate as the specification words it (C3): false
when `i` is the omitted position, otherwise a value comparison against the
effective predecessor and the effective successor, a missing side imposing
no constraint. -/
def is_local_maximum_spec (f : List (A × V)) (i om : Nat) : Bool :=
  if i = om then false
  else
    (match effPred i om with
     | some j => !vLt f i j
     | none => true) &&
    (match effSucc f.length i om with
     | some j => !vLt f i j
     | none => true)


/-! ### A selector-based reformulation of `update_maxima`.
The branching on the neighbour positions is factored into `Option`-valued
selectors so that the effect of one call on the maxima index can be
described uniformly. -/

/-- Erase the selected entry (`mx_end()` selects nothing). -/
def eraseOpt (o : Option (A × V)) (l : List (A × V)) : List (A × V) :=
  match o with
  | some x => l.erase x
  | none => l

/-- Resolved left-neighbour position of `update_maxima` (the two
`safe_decrement` calls). -/
def leftSel (i om : Nat) : Option Nat :=
  if i ≠ 0 then
    if i - 1 ≠ om then some (i - 1)
    else if i - 1 ≠ 0 then some (i - 2)
    else none
  else none

/-- Resolved right-neighbour position of `update_maxima` (the two
`++cpy_it` advances). -/
def rightSel (len i om : Nat) : Option Nat :=
  if i + 1 ≠ len then
    if i + 1 ≠ om then some (i + 1)
    else if i + 2 ≠ len then some (i + 2)
    else none
  else none

/-- One neighbour re-examination phase, as selected by `J`. -/
def convertPhase (g : List (A × V)) (om : Nat) (ms : List (A × V))
    (J : Option Nat) : List (A × V) × Option (A × V) :=
  match J with
  | some j => stopped_being_maximum g ms j om
  | none => (ms, none)

/-- Local-maximum status of the selected position (`false` if none). -/
def statusAt (g : List (A × V)) (om : Nat) (J : Option Nat) : Bool :=
  match J with
  | some j => is_local_maximum g j om
  | none => false

/-- `update_maxima` with its branching factored into the selectors; `pit`
is the point at position `i`. -/
def updateCore (g ms : List (A × V)) (i om : Nat) (pit : A × V)
    (JL JR : Option Nat) : List (A × V) :=
  let ms1 := if is_local_maximum g i om then mxInsert pit ms else ms
  let L := convertPhase g om ms1 JL
  let R := convertPhase g om L.1 JR
  eraseOpt R.2 (eraseOpt L.2 R.1)

/-- Invariant I1 together with the two representation invariants of the
class: the point store is strictly sorted by argument, the maxima index is
sorted by `comp_by_maxima`, and the maxima index holds exactly the local
maxima of the point store (as a multiset). -/
def Inv (s : FM A V) : Prop :=
  ArgSorted s.function ∧ List.Sorted mLE s.maxima ∧
    ∀ q : A × V, s.maxima.count q = (localMaxPoints s.function).count q

/-! ### A fuel-instrumented embedding of the mutating operations (C2, C9).
Every comparison and every allocation consumes one unit of fuel; a
computation with insufficient fuel throws at exactly that point, modelling a
comparator or an allocator that throws on its Nth invocation.  A thrown
result carries the maxima listing and the rollback vector as they stand at
the throw point, so the `catch` handlers can be stated faithfully. -/

/-- Outcome of a fuel-instrumented computation: a value and the remaining
fuel, or the exception, carrying the intermediate state `σ` at the point of
the throw. -/
inductive Res (σ : Type u) (α : Type v) where
  | ok : Nat → α → Res σ α
  | thrown : σ → Res σ α

/-- One allocation: consumes one unit of fuel. -/
def tick (fuel : Nat) : Res Unit Unit :=
  match fuel with
  | 0 => Res.thrown ()
  | n + 1 => Res.ok n ()

/-- One comparison of two arguments (`operator<` on `A`). -/
def cmpA (x y : A) (fuel : Nat) : Res Unit Bool :=
  match fuel with
  | 0 => Res.thrown ()
  | n + 1 => Res.ok n (decide (x < y))

/-- One evaluation of `comp_by_maxima` (its at most three scalar
comparisons counted as one unit). -/
def cmpM (p q : A × V) (fuel : Nat) : Res Unit Bool :=
  match fuel with
  | 0 => Res.thrown ()
  | n + 1 => Res.ok n (comp_by_maxima p q)

/-- One value comparison between the stored points at two positions. -/
def vLtF (f : List (A × V)) (i j : Nat) (fuel : Nat) : Res Unit Bool :=
  match fuel with
  | 0 => Res.thrown ()
  | n + 1 => Res.ok n (vLt f i j)

/-- Fuel-instrumented `function.find(a)`: one argument-comparison pair per
visited element, mirroring `findArg`. -/
def findArgF (a : A) : List (A × V) → Nat → Res Unit (Option Nat)
  | [], fuel => Res.ok fuel none
  | p :: t, fuel =>
    match cmpA p.1 a fuel with
    | Res.thrown _ => Res.thrown ()
    | Res.ok n1 true =>
      match findArgF a t n1 with
      | Res.thrown _ => Res.thrown ()
      | Res.ok n2 r => Res.ok n2 (r.map (· + 1))
    | Res.ok n1 false =>
      match cmpA a p.1 n1 with
      | Res.thrown _ => Res.thrown ()
      | Res.ok n2 true => Res.ok n2 none
      | Res.ok n2 false => Res.ok n2 (some 0)

/-- Fuel-instrumented `function.lower_bound(a)`, mirroring `lowerBound`. -/
def lowerBoundF (a : A) : List (A × V) → Nat → Res Unit Nat
  | [], fuel => Res.ok fuel 0
  | p :: t, fuel =>
    match cmpA p.1 a fuel with
    | Res.thrown _ => Res.thrown ()
    | Res.ok n1 true =>
      match lowerBoundF a t n1 with
      | Res.thrown _ => Res.thrown ()
      | Res.ok n2 r => Res.ok n2 (r + 1)
    | Res.ok n1 false => Res.ok n1 0

/-- Fuel-instrumented `maxima.find(p)` as a membership test: one
`comp_by_maxima` evaluation per visited element. -/
def memF (p : A × V) : List (A × V) → Nat → Res Unit Bool
  | [], fuel => Res.ok fuel false
  | q :: t, fuel =>
    match cmpM p q fuel with
    | Res.thrown _ => Res.thrown ()
    | Res.ok n1 _ =>
      if p = q then Res.ok n1 true else memF p t n1

/-- Fuel-instrumented first half of `is_local_maximum`. -/
def lm_leftF (f : List (A × V)) (i om : Nat) (fuel : Nat) : Res Unit Bool :=
  if i = 0 then Res.ok fuel true
  else if i - 1 ≠ om then
    match vLtF f i (i - 1) fuel with
    | Res.thrown _ => Res.thrown ()
    | Res.ok n b => Res.ok n !b
  else if i - 1 = 0 then Res.ok fuel true
  else
    match vLtF f i (i - 2) fuel with
    | Res.thrown _ => Res.thrown ()
    | Res.ok n b => Res.ok n !b

/-- Fuel-instrumented second half of `is_local_maximum`. -/
def lm_rightF (f : List (A × V)) (i om : Nat) (fuel : Nat) : Res Unit Bool :=
  if i + 1 = f.length then Res.ok fuel true
  else if i + 1 ≠ om then
    match vLtF f i (i + 1) fuel with
    | Res.thrown _ => Res.thrown ()
    | Res.ok n b => Res.ok n !b
  else if i + 2 = f.length then Res.ok fuel true
  else
    match vLtF f i (i + 2) fuel with
    | Res.thrown _ => Res.thrown ()
    | Res.ok n b => Res.ok n !b

/-- Fuel-instrumented `is_local_maximum`, with the short-circuit of the
source's early returns. -/
def is_local_maximumF (f : List (A × V)) (i om : Nat) (fuel : Nat) : Res Unit Bool :=
  if i = om then Res.ok fuel false
  else
    match lm_leftF f i om fuel with
    | Res.thrown _ => Res.thrown ()
    | Res.ok n false => Res.ok n false
    | Res.ok n true => lm_rightF f i om n

/-- Fuel-instrumented `maxima.insert(p)`: comparisons along the search path
and one final node allocation; the container is unchanged when any of them
throws (`std::multiset::insert` is strongly exception-safe). -/
def mxInsertF (p : A × V) : List (A × V) → Nat → Res Unit (List (A × V))
  | [], fuel =>
    (match fuel with
     | 0 => Res.thrown ()
     | n + 1 => Res.ok n [p])
  | q :: t, fuel =>
    match cmpM q p fuel with
    | Res.thrown _ => Res.thrown ()
    | Res.ok n1 _ =>
      if mLE p q then
        (match n1 with
         | 0 => Res.thrown ()
         | n2 + 1 => Res.ok n2 (p :: q :: t))
      else
        match mxInsertF p t n1 with
        | Res.thrown _ => Res.thrown ()
        | Res.ok n2 r => Res.ok n2 (q :: r)

/-- Fuel-instrumented `stopped_being_maximum` (src/function_maxima.h:220-232);
`rb` is the rollback vector, extended by the re-registration insert. -/
def stopped_being_maximumF (f ms : List (A × V)) (j om : Nat)
    (rb : List (A × V)) (fuel : Nat) :
    Res (List (A × V) × List (A × V))
      (List (A × V) × Option (A × V) × List (A × V)) :=
  match f[j]? with
  | none => Res.ok fuel (ms, none, rb)
  | some p =>
    match memF p ms fuel with
    | Res.thrown _ => Res.thrown (ms, rb)
    | Res.ok n1 found =>
      match is_local_maximumF f j om n1 with
      | Res.thrown _ => Res.thrown (ms, rb)
      | Res.ok n2 b =>
        if b then
          if found then Res.ok n2 (ms, none, rb)
          else
            match mxInsertF p ms n2 with
            | Res.thrown _ => Res.thrown (ms, rb)
            | Res.ok n3 ms2 => Res.ok n3 (ms2, none, rb ++ [p])
        else Res.ok n2 (ms, if found then some p else none, rb)

/-- One neighbour re-examination phase of the fuel-instrumented
`update_maxima`, as selected by `J` (the counterpart of `convertPhase`). -/
def convertPhaseF (g : List (A × V)) (om : Nat) (ms rb : List (A × V))
    (J : Option Nat) (fuel : Nat) :
    Res (List (A × V) × List (A × V))
      (List (A × V) × Option (A × V) × List (A × V)) :=
  match J with
  | some j => stopped_being_maximumF g ms j om rb fuel
  | none => Res.ok fuel (ms, none, rb)

/-- Fuel-instrumented `update_maxima` (src/function_maxima.h:241-272), with
the neighbour positions resolved by the same selectors as `updateCore`.
Returns the updated maxima listing together with the rollback vector; a
thrown result carries the listing and the rollback vector at the throw
point.  The two deferred erases run only after every throwing operation has
completed, as in the source. -/
def update_maximaF (g ms : List (A × V)) (i om : Nat) (fuel : Nat) :
    Res (List (A × V) × List (A × V)) (List (A × V) × List (A × V)) :=
  match is_local_maximumF g i om fuel with
  | Res.thrown _ => Res.thrown (ms, [])
  | Res.ok n1 b =>
    match (if b then
        match g[i]? with
        | some p =>
          (match mxInsertF p ms n1 with
           | Res.thrown _ => Res.thrown (ms, [])
           | Res.ok n2 ms2 => Res.ok n2 (ms2, [p]))
        | none => Res.ok n1 (ms, ([] : List (A × V)))
      else Res.ok n1 (ms, ([] : List (A × V)))) with
    | Res.thrown pay => Res.thrown pay
    | Res.ok n2 msrb =>
      match convertPhaseF g om msrb.1 msrb.2 (leftSel i om) n2 with
      | Res.thrown pay => Res.thrown pay
      | Res.ok n3 mlr =>
        match convertPhaseF g om mlr.1 mlr.2.2 (rightSel g.length i om) n3 with
        | Res.thrown pay => Res.thrown pay
        | Res.ok n4 mrr =>
          Res.ok n4 (eraseOpt mrr.2.1 (eraseOpt mlr.2.1 mrr.1), mrr.2.2)

/-- Fuel-instrumented `erase(a)` (src/function_maxima.h:43-64), including
its `catch` handler: on a throw the rollback entries are erased from the
maxima index and the exception propagates; the flag records whether the
call threw. -/
def eraseF (s : FM A V) (a : A) (fuel : Nat) : Bool × FM A V :=
  match findArgF a s.function fuel with
  | Res.thrown _ => (true, s)
  | Res.ok n1 none => (false, s)
  | Res.ok n1 (some i) =>
    match s.function[i]? with
    | none => (false, s)
    | some p =>
      match memF p s.maxima n1 with
      | Res.thrown _ => (true, s)
      | Res.ok n2 found =>
        match update_maximaF s.function s.maxima i i n2 with
        | Res.thrown pay =>
          (true, FM.mk s.function (pay.2.foldl (fun m x => m.erase x) pay.1))
        | Res.ok n3 msr =>
          (false, FM.mk (s.function.eraseIdx i)
            (if found then msr.1.erase p else msr.1))

/-- The lookup of `prev_max_it` of `set_value`, performed only when the
lower-bound neighbour exists. -/
def prevFindF (o : Option (A × V)) (ms : List (A × V)) (fuel : Nat) :
    Res Unit Bool :=
  match o with
  | some prev => memF prev ms fuel
  | none => Res.ok fuel false

/-- The `diff` test of `set_value` (one argument comparison when the
lower-bound neighbour exists). -/
def diffF (o : Option (A × V)) (a : A) (fuel : Nat) : Res Unit Bool :=
  match o with
  | some prev =>
    (match cmpA a prev.1 fuel with
     | Res.thrown _ => Res.thrown ()
     | Res.ok n b => Res.ok n !b)
  | none => Res.ok fuel false

/-- Fuel-instrumented `set_value(a, v)` (src/function_maxima.h:66-96),
including its `catch` handler: on a throw the rollback entries are erased
from the maxima index and the freshly inserted point is removed from the
point store, leaving the pre-call state. -/
def set_valueF (s : FM A V) (a : A) (v : V) (fuel : Nat) : Bool × FM A V :=
  match tick fuel with
  | Res.thrown _ => (true, s)
  | Res.ok n0 _ =>
    match lowerBoundF a s.function n0 with
    | Res.thrown _ => (true, s)
    | Res.ok n1 pos =>
      match prevFindF (s.function[pos]?) s.maxima n1 with
      | Res.thrown _ => (true, s)
      | Res.ok n2 prevFound =>
        match tick n2 with
        | Res.thrown _ => (true, s)
        | Res.ok n3 _ =>
          match diffF (s.function[pos]?) a n3 with
          | Res.thrown _ => (true, s)
          | Res.ok n4 diff =>
            match update_maximaF (s.function.insertIdx pos (a, v)) s.maxima pos
                (if diff then pos + 1
                 else (s.function.insertIdx pos (a, v)).length) n4 with
            | Res.thrown pay =>
              (true, FM.mk s.function (pay.2.foldl (fun m x => m.erase x) pay.1))
            | Res.ok n5 msr =>
              if diff then
                (match s.function[pos]? with
                 | some prev =>
                   (false, FM.mk ((s.function.insertIdx pos (a, v)).eraseIdx (pos + 1))
                     (if prevFound then msr.1.erase prev else msr.1))
                 | none => (false, FM.mk (s.function.insertIdx pos (a, v)) msr.1))
              else (false, FM.mk (s.function.insertIdx pos (a, v)) msr.1)

/-- Fuel-instrumented deep copy of one container: one node allocation per
element (C9). -/
def copyListF : List (A × V) → Nat → Res Unit (List (A × V))
  | [], fuel => Res.ok fuel []
  | p :: t, fuel =>
    match fuel with
    | 0 => Res.thrown ()
    | n + 1 =>
      match copyListF t n with
      | Res.thrown _ => Res.thrown ()
      | Res.ok n2 r => Res.ok n2 (p :: r)

/-- Fuel-instrumented `operator=` (src/function_maxima.h:126-134): build the
two temporary copies first, then swap them in; the target is not touched
until both copies are complete. -/
def assignF (dst src : FM A V) (fuel : Nat) : Bool × FM A V :=
  match copyListF src.function fuel with
  | Res.thrown _ => (true, dst)
  | Res.ok n1 tf =>
    match copyListF src.maxima n1 with
    | Res.thrown _ => (true, dst)
    | Res.ok n2 tm => (false, FM.mk tf tm)

/-- Relation `mLE` unfolded: value descending, ties broken by argument ascending. -/
theorem mLE_iff (p q : A × V) :
    mLE p q ↔ (q.2 < p.2 ∨ (p.2 = q.2 ∧ p.1 ≤ q.1)) := by
  unfold mLE comp_by_maxima
  rcases lt_trichotomy p.2 q.2 with h | h | h
  · simp [h, not_lt.mpr h.le, h.ne, not_lt_of_lt h]
  · simp [h, lt_irrefl, ← not_lt]
  · simp [h, not_lt.mpr h.le, h.ne.symm, not_lt_of_lt h]

instance : IsTotal (A × V) (mLE (A := A) (V := V)) where
  total p q := by
    rw [mLE_iff, mLE_iff]
    rcases lt_trichotomy p.2 q.2 with h | h | h
    · exact Or.inr (Or.inl h)
    · rcases le_total p.1 q.1 with h1 | h1
      · exact Or.inl (Or.inr ⟨h, h1⟩)
      · exact Or.inr (Or.inr ⟨h.symm, h1⟩)
    · exact Or.inl (Or.inl h)

instance : IsTrans (A × V) (mLE (A := A) (V := V)) where
  trans p q r := by
    rw [mLE_iff, mLE_iff, mLE_iff]
    rintro (h | ⟨he, ha⟩) (h' | ⟨he', ha'⟩)
    · exact Or.inl (h'.trans h)
    · exact Or.inl (he' ▸ h)
    · exact Or.inl (he ▸ h')
    · exact Or.inr ⟨he.trans he', ha.trans ha'⟩

instance : IsAntisymm (A × V) (mLE (A := A) (V := V)) where
  antisymm p q := by
    rw [mLE_iff, mLE_iff]
    rintro (h | ⟨he, ha⟩) (h' | ⟨he', ha'⟩)
    · exact absurd (h.trans h') (lt_irrefl _)
    · exact absurd h (he' ▸ lt_irrefl _)
    · exact absurd h' (he ▸ lt_irrefl _)
    · exact Prod.ext (le_antisymm ha ha') he

/-! ### Unfolded descriptions of the two mutating operations -/

theorem erase_eq_of_none (s : FM A V) (a : A) (h : findArg a s.function = none) :
    erase s a = s := by
  rw [erase, h]

theorem erase_eq_of_some (s : FM A V) (a : A) (i : Nat) (p : A × V)
    (hf : findArg a s.function = some i) (hp : s.function[i]? = some p) :
    erase s a = FM.mk (s.function.eraseIdx i)
      (if p ∈ s.maxima then (update_maxima s.function s.maxima i i).erase p
        else update_maxima s.function s.maxima i i) := by
  rw [erase, hf]
  simp only [hp]

/-! ### List surgery lemmas -/

theorem getElem?_insertIdx_of_le {α : Type*} (n : Nat) (x : α) (l : List α)
    (hn : n ≤ l.length) (k : Nat) :
    (List.insertIdx n x l)[k]? =
      if k < n then l[k]? else if k = n then some x else l[k - 1]? := by
  induction l generalizing n k with
  | nil =>
    have hn0 : n = 0 := by simpa using hn
    subst hn0
    rcases k with _ | k <;> simp
  | cons h t ih =>
    rcases n with _ | n
    · rcases k with _ | k <;> simp
    · rw [List.insertIdx_succ_cons]
      rcases k with _ | k
      · simp
      · have hn' : n ≤ t.length := by simpa using hn
        simp only [List.getElem?_cons_succ]
        rw [ih n hn' k]
        by_cases h1 : k < n
        · rw [if_pos h1, if_pos (by omega : k + 1 < n + 1)]
        · by_cases h2 : k = n
          · simp [h1, h2]
          · obtain ⟨m, rfl⟩ : ∃ m, k = m + 1 := ⟨k - 1, by omega⟩
            rw [if_neg h1, if_neg h2, if_neg (by omega : ¬ (m + 1 + 1 < n + 1)),
              if_neg (by omega : ¬ (m + 1 + 1 = n + 1))]
            simp

theorem eraseIdx_insertIdx_self {α : Type*} (n : Nat) (x : α) (l : List α)
    (hn : n ≤ l.length) :
    (List.insertIdx n x l).eraseIdx n = l := by
  induction l generalizing n with
  | nil =>
    have hn0 : n = 0 := by simpa using hn
    subst hn0
    simp
  | cons h t ih =>
    rcases n with _ | n
    · simp
    · rw [List.insertIdx_succ_cons, List.eraseIdx_cons_succ, ih n (by simpa using hn)]

theorem eraseIdx_insertIdx_succ {α : Type*} (n : Nat) (x : α) (l : List α)
    (hn : n < l.length) :
    (List.insertIdx n x l).eraseIdx (n + 1) = l.set n x := by
  induction l generalizing n with
  | nil => simp at hn
  | cons h t ih =>
    rcases n with _ | n
    · simp
    · rw [List.insertIdx_succ_cons, List.eraseIdx_cons_succ, ih n (by simpa using hn),
        List.set_cons_succ]

/-! ### Search lemmas -/

theorem lowerBound_le_length (a : A) (f : List (A × V)) : lowerBound a f ≤ f.length := by
  induction f with
  | nil => simp [lowerBound]
  | cons p t ih =>
    by_cases h : p.1 < a
    · simp only [lowerBound, if_pos h, List.length_cons]
      omega
    · simp [lowerBound, if_neg h]

theorem lowerBound_prefix_lt (a : A) (f : List (A × V)) :
    ∀ j p, j < lowerBound a f → f[j]? = some p → p.1 < a := by
  induction f with
  | nil => intro j p hj _; simp [lowerBound] at hj
  | cons q t ih =>
    intro j p hj hget
    by_cases h : q.1 < a
    · simp only [lowerBound, if_pos h] at hj
      rcases j with _ | j
      · obtain rfl : q = p := by simpa using hget
        exact h
      · exact ih j p (by omega) (by simpa using hget)
    · simp [lowerBound, if_neg h] at hj

theorem lowerBound_at_not_lt (a : A) (f : List (A × V)) :
    ∀ p, f[lowerBound a f]? = some p → ¬ p.1 < a := by
  induction f with
  | nil => intro p h; simp at h
  | cons q t ih =>
    intro p hget
    by_cases h : q.1 < a
    · simp only [lowerBound, if_pos h, List.getElem?_cons_succ] at hget
      exact ih p hget
    · simp only [lowerBound, if_neg h, List.getElem?_cons_zero, Option.some_inj] at hget
      exact hget ▸ h

theorem findArg_some (a : A) (f : List (A × V)) :
    ∀ i, findArg a f = some i → ∃ p, f[i]? = some p ∧ p.1 = a := by
  induction f with
  | nil => intro i h; simp [findArg] at h
  | cons q t ih =>
    intro i h
    by_cases h1 : q.1 < a
    · rw [findArg, if_pos h1] at h
      rw [Option.map_eq_some'] at h
      obtain ⟨j, hj, rfl⟩ := h
      obtain ⟨p, hp, hpa⟩ := ih j hj
      exact ⟨p, by simpa using hp, hpa⟩
    · by_cases h2 : a < q.1
      · rw [findArg, if_neg h1, if_pos h2] at h
        exact absurd h (by simp)
      · rw [findArg, if_neg h1, if_neg h2, Option.some_inj] at h
        subst h
        exact ⟨q, by simp, le_antisymm (not_lt.mp h2) (not_lt.mp h1)⟩

theorem findArg_none (a : A) (f : List (A × V))
    (h : ∀ p ∈ f, p.1 ≠ a) : findArg a f = none := by
  induction f with
  | nil => rfl
  | cons q t ih =>
    have hq : q.1 ≠ a := h q (by simp)
    by_cases h1 : q.1 < a
    · rw [findArg, if_pos h1, ih (fun p hp => h p (by simp [hp]))]
      rfl
    · rw [findArg, if_neg h1, if_pos (lt_of_le_of_ne (not_lt.mp h1) (Ne.symm hq))]

/-! ### Omission lemmas: the predicate with an omitted position agrees with
the plain predicate on the list with that position erased. -/

theorem vLt_eraseIdx (f : List (A × V)) (m a b : Nat) :
    vLt (f.eraseIdx m) a b =
      vLt f (if a < m then a else a + 1) (if b < m then b else b + 1) := by
  unfold vLt
  rw [List.getElem?_eraseIdx, List.getElem?_eraseIdx]
  split_ifs <;> rfl

theorem lm_left_far (f : List (A × V)) (i om : Nat) (hi : i < f.length)
    (h3 : om ≠ i - 1) :
    lm_left f i om = lm_left f i f.length := by
  unfold lm_left
  by_cases h0 : i = 0
  · rw [if_pos h0, if_pos h0]
  · rw [if_neg h0, if_neg h0, if_pos (show i - 1 ≠ om by omega),
      if_pos (show i - 1 ≠ f.length by omega)]

theorem lm_right_far (f : List (A × V)) (i om : Nat) (h2 : om ≠ i + 1) :
    lm_right f i om = lm_right f i f.length := by
  unfold lm_right
  by_cases hL : i + 1 = f.length
  · rw [if_pos hL, if_pos hL]
  · rw [if_neg hL, if_neg hL, if_pos (show i + 1 ≠ om by omega),
      if_pos (show i + 1 ≠ f.length from hL)]

theorem ilm_far (f : List (A × V)) (i om : Nat) (hi : i < f.length)
    (h1 : om ≠ i) (h2 : om ≠ i + 1) (h3 : om ≠ i - 1) :
    is_local_maximum f i om = isLM f i := by
  unfold isLM is_local_maximum
  rw [if_neg (show ¬ i = om by omega), if_neg (show ¬ i = f.length by omega),
    lm_left_far f i om hi h3, lm_right_far f i om h2]

theorem lm_left_eraseIdx (g : List (A × V)) (om i : Nat) (ho : om < g.length)
    (hi : i < g.length) (hne : i ≠ om) :
    lm_left g i om =
      lm_left (g.eraseIdx om) (if i < om then i else i - 1)
        (g.eraseIdx om).length := by
  have hlen : (g.eraseIdx om).length = g.length - 1 := by
    rw [List.length_eraseIdx, if_pos ho]
  rcases Nat.lt_or_ge i om with hlt | hge
  · rw [if_pos hlt]
    by_cases h0 : i = 0
    · unfold lm_left
      rw [if_pos h0, if_pos h0]
    · unfold lm_left
      rw [if_neg h0, if_neg h0, if_pos (show i - 1 ≠ om by omega),
        if_pos (show i - 1 ≠ (g.eraseIdx om).length by omega), vLt_eraseIdx,
        if_pos hlt, if_pos (show i - 1 < om by omega)]
  · have hgt : om < i := by omega
    rw [if_neg (by omega : ¬ i < om)]
    rcases Nat.eq_or_lt_of_le hgt with heq | hge2
    · -- i = om + 1: the left neighbour of i is the omitted position
      by_cases h00 : om = 0
      · -- the omitted position is also the first one: no left constraint
        unfold lm_left
        rw [if_neg (show ¬ i = 0 by omega), if_neg (show ¬ i - 1 ≠ om by omega),
          if_pos (show i - 1 = 0 by omega), if_pos (show i - 1 = 0 by omega)]
      · unfold lm_left
        rw [if_neg (show ¬ i = 0 by omega), if_neg (show ¬ i - 1 ≠ om by omega),
          if_neg (show ¬ i - 1 = 0 by omega), if_neg (show ¬ i - 1 = 0 by omega),
          if_pos (show i - 1 - 1 ≠ (g.eraseIdx om).length by omega), vLt_eraseIdx,
          if_neg (show ¬ i - 1 < om by omega), if_pos (show i - 1 - 1 < om by omega)]
        have e1 : i - 1 + 1 = i := by omega
        have e2 : i - 1 - 1 = i - 2 := by omega
        rw [e1, e2]
    · -- om + 1 < i: the left neighbour is below i but above om
      unfold lm_left
      rw [if_neg (show ¬ i = 0 by omega), if_pos (show i - 1 ≠ om by omega),
        if_neg (show ¬ i - 1 = 0 by omega),
        if_pos (show i - 1 - 1 ≠ (g.eraseIdx om).length by omega), vLt_eraseIdx,
        if_neg (show ¬ i - 1 < om by omega), if_neg (show ¬ i - 1 - 1 < om by omega)]
      have e1 : i - 1 + 1 = i := by omega
      have e2 : i - 1 - 1 + 1 = i - 1 := by omega
      rw [e1, e2]

theorem lm_right_eraseIdx (g : List (A × V)) (om i : Nat) (ho : om < g.length)
    (hi : i < g.length) (hne : i ≠ om) :
    lm_right g i om =
      lm_right (g.eraseIdx om) (if i < om then i else i - 1)
        (g.eraseIdx om).length := by
  have hlen : (g.eraseIdx om).length = g.length - 1 := by
    rw [List.length_eraseIdx, if_pos ho]
  rcases Nat.lt_or_ge i om with hlt | hge
  · rw [if_pos hlt]
    rcases Nat.eq_or_lt_of_le hlt with heq | hlt2
    · -- i + 1 = om: the right neighbour of i is the omitted position
      by_cases hEnd : i + 2 = g.length
      · unfold lm_right
        rw [if_neg (show ¬ i + 1 = g.length by omega), if_neg (show ¬ i + 1 ≠ om by omega),
          if_pos (show i + 2 = g.length from hEnd),
          if_pos (show i + 1 = (g.eraseIdx om).length by omega)]
      · unfold lm_right
        rw [if_neg (show ¬ i + 1 = g.length by omega), if_neg (show ¬ i + 1 ≠ om by omega),
          if_neg (show ¬ i + 2 = g.length from hEnd),
          if_neg (show ¬ i + 1 = (g.eraseIdx om).length by omega),
          if_pos (show i + 1 ≠ (g.eraseIdx om).length by omega), vLt_eraseIdx,
          if_pos (show i < om by omega), if_neg (show ¬ i + 1 < om by omega)]
    · -- i + 1 < om: the right neighbour is untouched
      unfold lm_right
      rw [if_neg (show ¬ i + 1 = g.length by omega),
        if_pos (show i + 1 ≠ om by omega),
        if_neg (show ¬ i + 1 = (g.eraseIdx om).length by omega),
        if_pos (show i + 1 ≠ (g.eraseIdx om).length by omega), vLt_eraseIdx,
        if_pos (show i < om by omega), if_pos (show i + 1 < om by omega)]
  · have hgt : om < i := by omega
    rw [if_neg (by omega : ¬ i < om)]
    by_cases hL : i + 1 = g.length
    · unfold lm_right
      rw [if_pos hL, if_pos (show i - 1 + 1 = (g.eraseIdx om).length by omega)]
    · unfold lm_right
      rw [if_neg hL, if_pos (show i + 1 ≠ om by omega),
        if_neg (show ¬ i - 1 + 1 = (g.eraseIdx om).length by omega),
        if_pos (show i - 1 + 1 ≠ (g.eraseIdx om).length by omega), vLt_eraseIdx,
        if_neg (show ¬ i - 1 < om by omega), if_neg (show ¬ i - 1 + 1 < om by omega)]
      have e1 : i - 1 + 1 = i := by omega
      rw [e1]

theorem ilm_eraseIdx (g : List (A × V)) (om i : Nat) (ho : om < g.length)
    (hi : i < g.length) (hne : i ≠ om) :
    is_local_maximum g i om = isLM (g.eraseIdx om) (if i < om then i else i - 1) := by
  have hlen : (g.eraseIdx om).length = g.length - 1 := by
    rw [List.length_eraseIdx, if_pos ho]
  unfold isLM is_local_maximum
  rw [if_neg (show ¬ i = om from hne),
    if_neg (show ¬ (if i < om then i else i - 1) = (g.eraseIdx om).length by
      split_ifs <;> omega),
    lm_left_eraseIdx g om i ho hi hne, lm_right_eraseIdx g om i ho hi hne]

/-! ### Nodup, sortedness and counting lemmas -/

theorem argSorted_nodup {f : List (A × V)} (h : ArgSorted f) : f.Nodup :=
  List.Pairwise.imp (fun hpq heq => absurd (heq ▸ hpq) (lt_irrefl _)) h

theorem argSorted_rel {f : List (A × V)} (h : ArgSorted f) {i j : Nat} {p q : A × V}
    (hij : i < j) (hp : f[i]? = some p) (hq : f[j]? = some q) : p.1 < q.1 := by
  rw [List.getElem?_eq_some] at hp hq
  obtain ⟨hi, rfl⟩ := hp
  obtain ⟨hj, rfl⟩ := hq
  exact List.pairwise_iff_getElem.mp h i j hi hj hij

theorem nodup_getElem?_inj {f : List (A × V)} (h : f.Nodup) {i j : Nat} {q : A × V}
    (hi : f[i]? = some q) (hj : f[j]? = some q) : i = j := by
  by_contra hne
  rcases Nat.lt_or_ge i j with hlt | hge
  · exact List.nodup_iff_getElem?_ne_getElem?.mp h i j hlt
      (List.getElem?_eq_some.mp hj).1 (hi.trans hj.symm)
  · exact List.nodup_iff_getElem?_ne_getElem?.mp h j i (by omega)
      (List.getElem?_eq_some.mp hi).1 (hj.trans hi.symm)

theorem count_mxInsert (p q : A × V) (ms : List (A × V)) :
    (mxInsert p ms).count q = ms.count q + if p = q then 1 else 0 := by
  rw [mxInsert, List.count_eq_countP,
    (List.perm_orderedInsert mLE p ms).countP_eq, ← List.count_eq_countP,
    List.count_cons]
  simp only [beq_iff_eq]

theorem count_erase_pt (p q : A × V) (ms : List (A × V)) :
    (ms.erase p).count q = ms.count q - if p = q then 1 else 0 := by
  rw [List.count_erase]
  simp only [beq_iff_eq]

theorem sorted_mxInsert {ms : List (A × V)} (p : A × V) (h : List.Sorted mLE ms) :
    List.Sorted mLE (mxInsert p ms) :=
  List.Sorted.orderedInsert p ms h

theorem sorted_erase_pt {ms : List (A × V)} (p : A × V) (h : List.Sorted mLE ms) :
    List.Sorted mLE (ms.erase p) :=
  List.Pairwise.sublist (List.erase_sublist p ms) h

theorem count_filterMap_eq {α β : Type*} [BEq β] [LawfulBEq β] [DecidableEq β]
    (g : α → Option β) (l : List α) (b : β) :
    (l.filterMap g).count b = l.countP (fun a => decide (g a = some b)) := by
  induction l with
  | nil => rfl
  | cons x t ih =>
    rw [List.filterMap_cons, List.countP_cons]
    cases hx : g x with
    | none => simp [hx, ih]
    | some y =>
      rw [List.count_cons, ih]
      by_cases hyb : y = b
      · simp [hx, hyb]
      · simp [hx, hyb]

theorem countP_range_single (p : Nat → Bool) (n j : Nat)
    (hj : ∀ i, p i = true → i = j) :
    (List.range n).countP p = if j < n ∧ p j = true then 1 else 0 := by
  induction n with
  | zero => simp
  | succ n ih =>
    rw [List.range_succ, List.countP_append, ih]
    have hsing : List.countP p [n] = if p n = true then 1 else 0 := by
      simp [List.countP_cons]
    rw [hsing]
    by_cases hpn : p n = true
    · have hnj : n = j := hj n hpn
      subst hnj
      simp [hpn, Nat.lt_irrefl]
    · by_cases hpj : p j = true
      · have hne : j ≠ n := fun h => hpn (h ▸ hpj)
        by_cases hlt : j < n
        · rw [if_pos ⟨hlt, hpj⟩, if_neg hpn, if_pos ⟨by omega, hpj⟩]
        · rw [if_neg (fun h => hlt h.1), if_neg hpn,
            if_neg (fun h => (by omega : ¬ j < n + 1) h.1)]
      · simp [hpj, hpn]

theorem countP_range_eq_one (p : Nat → Bool) (n j : Nat)
    (hj : ∀ i, p i = true → i = j) (hjn : j < n) (hpj : p j = true) :
    (List.range n).countP p = 1 := by
  rw [countP_range_single p n j hj, if_pos ⟨hjn, hpj⟩]

theorem count_localMaxPoints_at {f : List (A × V)} (hnd : f.Nodup) {j : Nat}
    {q : A × V} (hq : f[j]? = some q) :
    (localMaxPoints f).count q = if isLM f j then 1 else 0 := by
  rw [localMaxPoints, count_filterMap_eq]
  have hone : ∀ i,
      decide ((if isLM f i then f[i]? else none) = some q) = true → i = j := by
    intro i hi
    rw [decide_eq_true_iff] at hi
    by_cases him : isLM f i
    · rw [if_pos him] at hi
      exact nodup_getElem?_inj hnd hi hq
    · rw [if_neg him] at hi
      exact absurd hi (by simp)
  have hjlen : j < f.length := (List.getElem?_eq_some.mp hq).1
  by_cases him : isLM f j
  · rw [countP_range_eq_one _ f.length j hone hjlen (by simp [him, hq]), if_pos him]
  · rw [if_neg him, List.countP_eq_zero.mpr ?_]
    intro i _ hpi
    have hij : i = j := hone i hpi
    subst hij
    rw [decide_eq_true_iff, if_neg him] at hpi
    exact absurd hpi (by simp)

theorem count_localMaxPoints_of_not_mem {f : List (A × V)} {q : A × V}
    (h : q ∉ f) : (localMaxPoints f).count q = 0 := by
  rw [List.count_eq_zero]
  intro hq
  apply h
  rw [localMaxPoints] at hq
  obtain ⟨i, _, hi⟩ := List.mem_filterMap.mp hq
  by_cases him : isLM f i
  · rw [if_pos him] at hi
    exact List.mem_iff_getElem?.mpr ⟨i, hi⟩
  · rw [if_neg him] at hi
    exact absurd hi (by simp)

theorem mem_localMaxPoints_sub {f : List (A × V)} {q : A × V}
    (h : q ∈ localMaxPoints f) : q ∈ f := by
  rw [localMaxPoints] at h
  obtain ⟨i, _, hi⟩ := List.mem_filterMap.mp h
  by_cases him : isLM f i
  · rw [if_pos him] at hi
    exact List.mem_iff_getElem?.mpr ⟨i, hi⟩
  · rw [if_neg him] at hi
    exact absurd hi (by simp)

/-- Unfolded form of `stopped_being_maximum`: the updated index. -/
theorem stopped_fst (f ms : List (A × V)) (j om : Nat) {p : A × V}
    (hj : f[j]? = some p) :
    (stopped_being_maximum f ms j om).1 =
      if is_local_maximum f j om ∧ p ∉ ms then mxInsert p ms else ms := by
  rw [stopped_being_maximum, hj]
  by_cases hb : is_local_maximum f j om
  · by_cases hm : p ∈ ms
    · simp [hb, hm]
    · simp [hb, hm]
  · simp [hb]

/-- Unfolded form of `stopped_being_maximum`: the entry scheduled for
erasure. -/
theorem stopped_snd (f ms : List (A × V)) (j om : Nat) {p : A × V}
    (hj : f[j]? = some p) :
    (stopped_being_maximum f ms j om).2 =
      if ¬ is_local_maximum f j om ∧ p ∈ ms then some p else none := by
  rw [stopped_being_maximum, hj]
  by_cases hb : is_local_maximum f j om
  · simp [hb]
  · by_cases hm : p ∈ ms
    · simp [hb, hm]
    · simp [hb, hm]

theorem stopped_count (f ms : List (A × V)) (j om : Nat) {p : A × V}
    (hj : f[j]? = some p) (q : A × V) :
    ((stopped_being_maximum f ms j om).1).count q =
      ms.count q + if is_local_maximum f j om ∧ p ∉ ms ∧ p = q then 1 else 0 := by
  rw [stopped_fst f ms j om hj]
  by_cases hb : is_local_maximum f j om
  · by_cases hm : p ∈ ms
    · simp [hb, hm]
    · rw [if_pos ⟨hb, hm⟩, count_mxInsert]
      by_cases hpq : p = q
      · subst hpq
        simp [hb, hm]
      · simp [hpq, hb, hm]
  · simp [hb]

theorem ilm_self (f : List (A × V)) (i : Nat) : is_local_maximum f i i = false := by
  simp [is_local_maximum]

theorem mem_mxInsert {x p : A × V} {l : List (A × V)} :
    x ∈ mxInsert p l ↔ x = p ∨ x ∈ l :=
  List.mem_orderedInsert mLE

theorem convertPhase_leftSel (g ms1 : List (A × V)) (i om : Nat) :
    (if i ≠ 0 then
      if i - 1 ≠ om then stopped_being_maximum g ms1 (i - 1) om
      else if i - 1 ≠ 0 then stopped_being_maximum g ms1 (i - 2) om
      else (ms1, none)
    else (ms1, none)) = convertPhase g om ms1 (leftSel i om) := by
  simp only [leftSel]
  split_ifs <;> rfl

theorem convertPhase_rightSel (g ms1 : List (A × V)) (i om : Nat) :
    (if i + 1 ≠ g.length then
      if i + 1 ≠ om then stopped_being_maximum g ms1 (i + 1) om
      else if i + 2 ≠ g.length then stopped_being_maximum g ms1 (i + 2) om
      else (ms1, none)
    else (ms1, none)) = convertPhase g om ms1 (rightSel g.length i om) := by
  simp only [rightSel]
  split_ifs <;> rfl

theorem update_maxima_eq_core (g ms : List (A × V)) (i om : Nat) (pit : A × V)
    (hit : g[i]? = some pit) :
    update_maxima g ms i om =
      updateCore g ms i om pit (leftSel i om) (rightSel g.length i om) := by
  simp only [update_maxima, updateCore]
  rw [hit, convertPhase_leftSel, convertPhase_rightSel]
  rfl

theorem statusAt_isSome {g : List (A × V)} {om : Nat} {J : Option Nat}
    (h : statusAt g om J = true) : J.isSome = true := by
  cases J with
  | none => simp [statusAt] at h
  | some j => rfl

theorem count_eraseOpt (o : Option (A × V)) (l : List (A × V)) (q : A × V) :
    (eraseOpt o l).count q = l.count q - if o = some q then 1 else 0 := by
  cases o with
  | none => simp [eraseOpt]
  | some x =>
    rw [eraseOpt, count_erase_pt]
    by_cases hxq : x = q
    · simp [hxq]
    · simp [hxq]

theorem sorted_eraseOpt (o : Option (A × V)) {l : List (A × V)}
    (h : List.Sorted mLE l) : List.Sorted mLE (eraseOpt o l) := by
  cases o with
  | none => exact h
  | some x => exact sorted_erase_pt x h

theorem convertPhase_count (g : List (A × V)) (om : Nat) (ms : List (A × V))
    (J : Option Nat) (x : A × V) (hxJ : ∀ j, J = some j → g[j]? = some x)
    (q : A × V) :
    ((convertPhase g om ms J).1).count q =
      ms.count q + if statusAt g om J = true ∧ x ∉ ms ∧ x = q then 1 else 0 := by
  cases J with
  | none => simp [convertPhase, statusAt]
  | some j =>
    simp only [convertPhase, statusAt]
    exact stopped_count g ms j om (hxJ j rfl) q

theorem convertPhase_snd (g : List (A × V)) (om : Nat) (ms : List (A × V))
    (J : Option Nat) (x : A × V) (hxJ : ∀ j, J = some j → g[j]? = some x) :
    (convertPhase g om ms J).2 =
      if ¬ statusAt g om J = true ∧ J.isSome = true ∧ x ∈ ms then some x
      else none := by
  cases J with
  | none => simp [convertPhase, statusAt]
  | some j =>
    simp only [convertPhase, statusAt, Option.isSome_some]
    rw [stopped_snd g ms j om (hxJ j rfl)]
    by_cases hb : is_local_maximum g j om = true
    · simp [hb]
    · by_cases hm : x ∈ ms
      · simp [hb, hm]
      · simp [hb, hm]

theorem convertPhase_mem (g : List (A × V)) (om : Nat) (ms : List (A × V))
    (J : Option Nat) (x y : A × V) (hxJ : ∀ j, J = some j → g[j]? = some x)
    (hy : J.isSome = true → y ≠ x) :
    (y ∈ (convertPhase g om ms J).1 ↔ y ∈ ms) := by
  cases J with
  | none => exact Iff.rfl
  | some j =>
    simp only [convertPhase]
    rw [stopped_fst g ms j om (hxJ j rfl)]
    split_ifs with h
    · rw [mem_mxInsert]
      simp [hy rfl]
    · exact Iff.rfl

theorem count_insertIf (b : Bool) (p : A × V) (ms : List (A × V)) (q : A × V) :
    ((if b = true then mxInsert p ms else ms).count q) =
      ms.count q + if b = true ∧ p = q then 1 else 0 := by
  by_cases hb : b = true
  · rw [if_pos hb, count_mxInsert]
    by_cases hpq : p = q
    · simp [hb, hpq]
    · simp [hb, hpq]
  · simp [hb]

theorem mem_insertIf (b : Bool) (p : A × V) (ms : List (A × V)) {y : A × V}
    (hy : y ≠ p) :
    (y ∈ (if b = true then mxInsert p ms else ms)) ↔ y ∈ ms := by
  by_cases hb : b = true
  · rw [if_pos hb, mem_mxInsert]
    simp [hy]
  · rw [if_neg hb]

/-- Bookkeeping summary of one `update_maxima` call (in `updateCore` form):
the effect on the count of an arbitrary point `q` in the maxima index, in
terms of the input index, the statuses of the examined positions and their
points.  The distinctness hypotheses hold in every call site because the
examined positions carry distinct arguments. -/
theorem updateCore_count (g ms : List (A × V)) (i om : Nat)
    (pit pL pR q : A × V) (JL JR : Option Nat)
    (hL : ∀ j, JL = some j → g[j]? = some pL)
    (hR : ∀ j, JR = some j → g[j]? = some pR)
    (hd1 : JL.isSome = true → pit ≠ pL)
    (hd2 : JR.isSome = true → pit ≠ pR)
    (hd3 : JL.isSome = true → JR.isSome = true → pL ≠ pR) :
    (updateCore g ms i om pit JL JR).count q =
      ms.count q
        + (if is_local_maximum g i om = true ∧ pit = q then 1 else 0)
        + (if statusAt g om JL = true ∧ pL ∉ ms ∧ pL = q then 1 else 0)
        + (if statusAt g om JR = true ∧ pR ∉ ms ∧ pR = q then 1 else 0)
        - (if ¬ statusAt g om JL = true ∧ JL.isSome = true ∧ pL ∈ ms ∧ pL = q
            then 1 else 0)
        - (if ¬ statusAt g om JR = true ∧ JR.isSome = true ∧ pR ∈ ms ∧ pR = q
            then 1 else 0) := by
  simp only [updateCore]
  rw [count_eraseOpt, count_eraseOpt,
    convertPhase_count g om _ JR pR hR q,
    convertPhase_count g om _ JL pL hL q,
    count_insertIf,
    convertPhase_snd g om _ JR pR hR,
    convertPhase_snd g om _ JL pL hL]
  -- membership in the intermediate indices agrees with membership in `ms`
  -- for the two neighbour points
  have hmemL : JL.isSome = true →
      ((pL ∈ (if is_local_maximum g i om = true then mxInsert pit ms else ms)) ↔
        pL ∈ ms) := by
    intro hiso
    exact mem_insertIf _ pit ms (fun h => hd1 hiso h.symm)
  have hmemR : JR.isSome = true →
      ((pR ∈ (convertPhase g om
          (if is_local_maximum g i om = true then mxInsert pit ms else ms) JL).1) ↔
        pR ∈ ms) := by
    intro hiso
    rw [convertPhase_mem g om _ JL pL pR hL
      (fun hisoL => (hd3 hisoL hiso).symm)]
    exact mem_insertIf _ pit ms (fun h => hd2 hiso h.symm)
  have eBL :
      (if statusAt g om JL = true ∧
          pL ∉ (if is_local_maximum g i om = true then mxInsert pit ms else ms) ∧
          pL = q then 1 else 0) =
      (if statusAt g om JL = true ∧ pL ∉ ms ∧ pL = q then 1 else 0) := by
    by_cases hs : statusAt g om JL = true
    · have hmem := hmemL (statusAt_isSome hs)
      simp only [hmem]
    · simp [hs]
  have eBR :
      (if statusAt g om JR = true ∧
          pR ∉ (convertPhase g om
            (if is_local_maximum g i om = true then mxInsert pit ms else ms) JL).1 ∧
          pR = q then 1 else 0) =
      (if statusAt g om JR = true ∧ pR ∉ ms ∧ pR = q then 1 else 0) := by
    by_cases hs : statusAt g om JR = true
    · have hmem := hmemR (statusAt_isSome hs)
      simp only [hmem]
    · simp [hs]
  have eSL :
      (if (if ¬ statusAt g om JL = true ∧ JL.isSome = true ∧
            pL ∈ (if is_local_maximum g i om = true then mxInsert pit ms else ms)
          then some pL else none) = some q then 1 else 0) =
      (if ¬ statusAt g om JL = true ∧ JL.isSome = true ∧ pL ∈ ms ∧ pL = q
          then 1 else 0) := by
    by_cases hiso : JL.isSome = true
    · have hmem := hmemL hiso
      simp only [hmem]
      by_cases hs : statusAt g om JL = true
      · simp [hs]
      · by_cases hm : pL ∈ ms
        · by_cases hpq : pL = q
          · subst hpq
            simp [hs, hiso, hm]
          · simp [hs, hiso, hm, hpq]
        · simp [hs, hiso, hm]
    · simp [hiso]
  have eSR :
      (if (if ¬ statusAt g om JR = true ∧ JR.isSome = true ∧
            pR ∈ (convertPhase g om
              (if is_local_maximum g i om = true then mxInsert pit ms else ms) JL).1
          then some pR else none) = some q then 1 else 0) =
      (if ¬ statusAt g om JR = true ∧ JR.isSome = true ∧ pR ∈ ms ∧ pR = q
          then 1 else 0) := by
    by_cases hiso : JR.isSome = true
    · have hmem := hmemR hiso
      simp only [hmem]
      by_cases hs : statusAt g om JR = true
      · simp [hs]
      · by_cases hm : pR ∈ ms
        · by_cases hpq : pR = q
          · subst hpq
            simp [hs, hiso, hm]
          · simp [hs, hiso, hm, hpq]
        · simp [hs, hiso, hm]
    · simp [hiso]
  rw [eBL, eBR, eSL, eSR]

theorem ilm_eraseIdx_le (g : List (A × V)) (om i : Nat) (ho : om ≤ g.length)
    (hi : i < g.length) (hne : i ≠ om) :
    is_local_maximum g i om = isLM (g.eraseIdx om) (if i < om then i else i - 1) := by
  rcases Nat.lt_or_ge om g.length with h | h
  · exact ilm_eraseIdx g om i h hi hne
  · have hlen : om = g.length := by omega
    subst hlen
    rw [List.eraseIdx_of_length_le (le_refl _), if_pos hi]
    rfl

theorem count_cases {x : A × V} {ms : List (A × V)} (h1 : ms.count x ≤ 1) :
    (x ∈ ms ∧ ms.count x = 1) ∨ (x ∉ ms ∧ ms.count x = 0) := by
  by_cases hm : x ∈ ms
  · exact Or.inl ⟨hm, le_antisymm h1 (List.count_pos_iff.mpr hm)⟩
  · exact Or.inr ⟨hm, by rwa [List.count_eq_zero]⟩

theorem count_localMaxPoints_le_one {f : List (A × V)} (hnd : f.Nodup) (x : A × V) :
    (localMaxPoints f).count x ≤ 1 := by
  by_cases hx : x ∈ f
  · obtain ⟨j, hj⟩ := List.mem_iff_getElem?.mp hx
    rw [count_localMaxPoints_at hnd hj]
    split_ifs <;> omega
  · rw [count_localMaxPoints_of_not_mem hx]
    omega

/-- Main bookkeeping theorem covering all three mutating call patterns of
`update_maxima`: after the call and the operation's final erasure of the
old point, the maxima index has exactly the counts of the local-maximum
points of the resulting store `g.eraseIdx om`.  The hypotheses are
discharged separately for `erase` (om = i), a replacing `set_value`
(om = i + 1) and a fresh `set_value` (om = g.length).  `hother` carries
the frame property: points away from the mutation site keep their counts. -/
theorem op_maxima_count
    (g ms : List (A × V)) (i om jR : Nat) (pit pold pL pR : A × V)
    (hi : i < g.length)
    (homle : om ≤ g.length)
    (hom : om = i ∨ om = i + 1 ∨ om = g.length)
    (hit : g[i]? = some pit)
    (hpold : om < g.length → g[om]? = some pold)
    (hjR : jR = if om = i + 1 then i + 2 else i + 1)
    (hpL : i ≠ 0 → g[i - 1]? = some pL)
    (hpR : jR < g.length → g[jR]? = some pR)
    (hd1 : i ≠ 0 → pit ≠ pL)
    (hd2 : jR < g.length → pit ≠ pR)
    (hd3 : i ≠ 0 → jR < g.length → pL ≠ pR)
    (hd4 : om < g.length → i ≠ 0 → pold ≠ pL)
    (hd5 : om < g.length → jR < g.length → pold ≠ pR)
    (hnd2 : (g.eraseIdx om).Nodup)
    (hcnt1 : ∀ x : A × V, ms.count x ≤ 1)
    (hpit0 : om = g.length ∨ pit ≠ pold → ms.count pit = 0)
    (hpoldnot : om < g.length → pold ≠ pit → pold ∉ g.eraseIdx om)
    (hpoldit : om = i → pit ∉ g.eraseIdx om)
    (hother : ∀ x : A × V, x ≠ pit → (om < g.length → x ≠ pold) →
        (i ≠ 0 → x ≠ pL) → (jR < g.length → x ≠ pR) →
        ms.count x = (localMaxPoints (g.eraseIdx om)).count x)
    (q : A × V) :
    (if om < g.length ∧ pold ∈ ms then (update_maxima g ms i om).erase pold
      else update_maxima g ms i om).count q =
      (localMaxPoints (g.eraseIdx om)).count q := by
  have hjd : (jR = i + 1 ∧ om ≠ i + 1) ∨ (jR = i + 2 ∧ om = i + 1) := by
    by_cases h : om = i + 1
    · exact Or.inr ⟨by rw [hjR, if_pos h], h⟩
    · exact Or.inl ⟨by rw [hjR, if_neg h], h⟩
  have hF1 : i ≠ 0 → i - 1 ≠ om := by
    intro h0
    rcases hom with h | h | h <;> omega
  have hF2 : i ≠ 0 → i - 1 < om := by
    intro h0
    rcases hom with h | h | h <;> omega
  have hF3 : jR < g.length → jR ≠ om := by
    intro hRl
    rcases hom with h | h | h <;> rcases hjd with ⟨h2, h4⟩ | ⟨h2, h3⟩ <;> omega
  have hF4 : jR < g.length → ¬ jR < om → ¬ jR - 1 < om := by
    intro hRl hjo
    rcases hom with h | h | h <;> rcases hjd with ⟨h2, h4⟩ | ⟨h2, h3⟩ <;> omega
  have hF5 : jR - 1 + 1 = jR := by
    rcases hjd with ⟨h2, h4⟩ | ⟨h2, h3⟩ <;> omega
  -- resolve the selectors
  have hJL : leftSel i om = if i ≠ 0 then some (i - 1) else none := by
    by_cases h0 : i = 0
    · simp [leftSel, h0]
    · simp [leftSel, h0, hF1 h0]
  have hJR : rightSel g.length i om = if jR < g.length then some jR else none := by
    by_cases homi : om = i + 1
    · rw [hjR, if_pos homi]
      by_cases hR1 : i + 1 = g.length
      · rw [if_neg (by omega : ¬ i + 2 < g.length)]
        simp [rightSel, hR1]
      · by_cases hR2 : i + 2 = g.length
        · rw [if_neg (by omega : ¬ i + 2 < g.length)]
          simp [rightSel, hR1, homi, hR2]
        · rw [if_pos (by omega : i + 2 < g.length)]
          simp [rightSel, hR1, homi, hR2]
    · rw [hjR, if_neg homi]
      by_cases hR1 : i + 1 = g.length
      · rw [if_neg (by omega : ¬ i + 1 < g.length)]
        simp [rightSel, hR1]
      · have hRne : i + 1 ≠ om := fun hh => homi hh.symm
        rw [if_pos (by omega : i + 1 < g.length)]
        simp [rightSel, hR1, hRne]
  have hL' : ∀ j, leftSel i om = some j → g[j]? = some pL := by
    intro j hj
    rw [hJL] at hj
    by_cases h0 : i ≠ 0
    · rw [if_pos h0] at hj
      obtain rfl : i - 1 = j := Option.some_inj.mp hj
      exact hpL h0
    · rw [if_neg h0] at hj
      exact absurd hj (by simp)
  have hR' : ∀ j, rightSel g.length i om = some j → g[j]? = some pR := by
    intro j hj
    rw [hJR] at hj
    by_cases hRl : jR < g.length
    · rw [if_pos hRl] at hj
      obtain rfl : jR = j := Option.some_inj.mp hj
      exact hpR hRl
    · rw [if_neg hRl] at hj
      exact absurd hj (by simp)
  have hiso_L : (leftSel i om).isSome = true ↔ i ≠ 0 := by
    rw [hJL]
    by_cases h0 : i ≠ 0 <;> simp [h0]
  have hiso_R : (rightSel g.length i om).isSome = true ↔ jR < g.length := by
    rw [hJR]
    by_cases hRl : jR < g.length <;> simp [hRl]
  have hsA_L : statusAt g om (leftSel i om) = true ↔
      (i ≠ 0 ∧ is_local_maximum g (i - 1) om = true) := by
    rw [hJL]
    by_cases h0 : i ≠ 0 <;> simp [h0, statusAt]
  have hsA_R : statusAt g om (rightSel g.length i om) = true ↔
      (jR < g.length ∧ is_local_maximum g jR om = true) := by
    rw [hJR]
    by_cases hRl : jR < g.length <;> simp [hRl, statusAt]
  -- the count change produced by `update_maxima`
  have hUM : ∀ q' : A × V, (update_maxima g ms i om).count q' =
      ms.count q'
        + (if is_local_maximum g i om = true ∧ pit = q' then 1 else 0)
        + (if i ≠ 0 ∧ is_local_maximum g (i - 1) om = true ∧ pL ∉ ms ∧ pL = q'
            then 1 else 0)
        + (if jR < g.length ∧ is_local_maximum g jR om = true ∧ pR ∉ ms ∧ pR = q'
            then 1 else 0)
        - (if i ≠ 0 ∧ ¬ is_local_maximum g (i - 1) om = true ∧ pL ∈ ms ∧ pL = q'
            then 1 else 0)
        - (if jR < g.length ∧ ¬ is_local_maximum g jR om = true ∧ pR ∈ ms ∧ pR = q'
            then 1 else 0) := by
    intro q'
    rw [update_maxima_eq_core g ms i om pit hit,
      updateCore_count g ms i om pit pL pR q' (leftSel i om) (rightSel g.length i om)
        hL' hR' (fun h => hd1 (hiso_L.mp h)) (fun h => hd2 (hiso_R.mp h))
        (fun hL0 hR0 => hd3 (hiso_L.mp hL0) (hiso_R.mp hR0))]
    have e2 : (if statusAt g om (leftSel i om) = true ∧ pL ∉ ms ∧ pL = q' then 1 else 0) =
        (if i ≠ 0 ∧ is_local_maximum g (i - 1) om = true ∧ pL ∉ ms ∧ pL = q'
          then 1 else 0) := by
      by_cases hs : statusAt g om (leftSel i om) = true
      · obtain ⟨h0, hb⟩ := hsA_L.mp hs
        by_cases hrest : pL ∉ ms ∧ pL = q'
        · rw [if_pos ⟨hs, hrest.1, hrest.2⟩, if_pos ⟨h0, hb, hrest.1, hrest.2⟩]
        · rw [if_neg (fun hc => hrest ⟨hc.2.1, hc.2.2⟩),
            if_neg (fun hc => hrest ⟨hc.2.2.1, hc.2.2.2⟩)]
      · rw [if_neg (fun hc => hs hc.1),
          if_neg (fun hc => hs (hsA_L.mpr ⟨hc.1, hc.2.1⟩))]
    have e3 : (if statusAt g om (rightSel g.length i om) = true ∧ pR ∉ ms ∧ pR = q'
          then 1 else 0) =
        (if jR < g.length ∧ is_local_maximum g jR om = true ∧ pR ∉ ms ∧ pR = q'
          then 1 else 0) := by
      by_cases hs : statusAt g om (rightSel g.length i om) = true
      · obtain ⟨hRl, hb⟩ := hsA_R.mp hs
        by_cases hrest : pR ∉ ms ∧ pR = q'
        · rw [if_pos ⟨hs, hrest.1, hrest.2⟩, if_pos ⟨hRl, hb, hrest.1, hrest.2⟩]
        · rw [if_neg (fun hc => hrest ⟨hc.2.1, hc.2.2⟩),
            if_neg (fun hc => hrest ⟨hc.2.2.1, hc.2.2.2⟩)]
      · rw [if_neg (fun hc => hs hc.1),
          if_neg (fun hc => hs (hsA_R.mpr ⟨hc.1, hc.2.1⟩))]
    have e4 : (if ¬ statusAt g om (leftSel i om) = true ∧ (leftSel i om).isSome = true ∧
          pL ∈ ms ∧ pL = q' then 1 else 0) =
        (if i ≠ 0 ∧ ¬ is_local_maximum g (i - 1) om = true ∧ pL ∈ ms ∧ pL = q'
          then 1 else 0) := by
      by_cases hc1 : ¬ statusAt g om (leftSel i om) = true ∧ (leftSel i om).isSome = true ∧
          pL ∈ ms ∧ pL = q'
      · have h0 : i ≠ 0 := hiso_L.mp hc1.2.1
        have hb : ¬ is_local_maximum g (i - 1) om = true :=
          fun hb => hc1.1 (hsA_L.mpr ⟨h0, hb⟩)
        rw [if_pos hc1, if_pos ⟨h0, hb, hc1.2.2.1, hc1.2.2.2⟩]
      · rw [if_neg hc1, if_neg ?_]
        rintro ⟨h0, hb, hm, hq⟩
        exact hc1 ⟨fun hs => hb (hsA_L.mp hs).2, hiso_L.mpr h0, hm, hq⟩
    have e5 : (if ¬ statusAt g om (rightSel g.length i om) = true ∧
          (rightSel g.length i om).isSome = true ∧ pR ∈ ms ∧ pR = q' then 1 else 0) =
        (if jR < g.length ∧ ¬ is_local_maximum g jR om = true ∧ pR ∈ ms ∧ pR = q'
          then 1 else 0) := by
      by_cases hc1 : ¬ statusAt g om (rightSel g.length i om) = true ∧
          (rightSel g.length i om).isSome = true ∧ pR ∈ ms ∧ pR = q'
      · have hRl : jR < g.length := hiso_R.mp hc1.2.1
        have hb : ¬ is_local_maximum g jR om = true :=
          fun hb => hc1.1 (hsA_R.mpr ⟨hRl, hb⟩)
        rw [if_pos hc1, if_pos ⟨hRl, hb, hc1.2.2.1, hc1.2.2.2⟩]
      · rw [if_neg hc1, if_neg ?_]
        rintro ⟨hRl, hb, hm, hq⟩
        exact hc1 ⟨fun hs => hb (hsA_R.mp hs).2, hiso_R.mpr hRl, hm, hq⟩
    rw [e2, e3, e4, e5]
  -- the omission-equivalences identifying old statuses with new ones
  have hNewL : i ≠ 0 → is_local_maximum g (i - 1) om = isLM (g.eraseIdx om) (i - 1) := by
    intro h0
    have h1 : i - 1 < g.length := by omega
    have h3 := ilm_eraseIdx_le g om (i - 1) homle h1 (hF1 h0)
    rwa [if_pos (hF2 h0)] at h3
  have hNewR : jR < g.length →
      is_local_maximum g jR om = isLM (g.eraseIdx om) (if jR < om then jR else jR - 1) :=
    fun hRl => ilm_eraseIdx_le g om jR homle hRl (hF3 hRl)
  have hNewIT : i < om → is_local_maximum g i om = isLM (g.eraseIdx om) i := by
    intro hio
    have h3 := ilm_eraseIdx_le g om i homle hi (by omega)
    rwa [if_pos hio] at h3
  -- positions of the affected points in the resulting store
  have hf2L : i ≠ 0 → (g.eraseIdx om)[i - 1]? = some pL := by
    intro h0
    rw [List.getElem?_eraseIdx, if_pos (hF2 h0)]
    exact hpL h0
  have hf2R : jR < g.length →
      (g.eraseIdx om)[if jR < om then jR else jR - 1]? = some pR := by
    intro hRl
    by_cases hjo : jR < om
    · rw [if_pos hjo, List.getElem?_eraseIdx, if_pos hjo]
      exact hpR hRl
    · rw [if_neg hjo, List.getElem?_eraseIdx, if_neg (hF4 hRl hjo)]
      rw [hF5]
      exact hpR hRl
  have hf2IT : i < om → (g.eraseIdx om)[i]? = some pit := by
    intro hio
    rw [List.getElem?_eraseIdx, if_pos hio]
    exact hit
  -- fold the final conditional erase into a count subtraction
  have hFIN : (if om < g.length ∧ pold ∈ ms then (update_maxima g ms i om).erase pold
        else update_maxima g ms i om).count q =
      (update_maxima g ms i om).count q -
        (if om < g.length ∧ pold ∈ ms ∧ pold = q then 1 else 0) := by
    by_cases hifc : om < g.length ∧ pold ∈ ms
    · rw [if_pos hifc, count_erase_pt]
      by_cases hpq : pold = q
      · rw [if_pos hpq, if_pos ⟨hifc.1, hifc.2, hpq⟩]
      · rw [if_neg hpq, if_neg (fun hc => hpq hc.2.2)]
    · rw [if_neg hifc, if_neg (fun hc => hifc ⟨hc.1, hc.2.1⟩)]
      omega
  rw [hFIN, hUM q]
  -- per-point case analysis
  by_cases hqit : pit = q
  · subst hqit
    have eL1 : (if i ≠ 0 ∧ is_local_maximum g (i - 1) om = true ∧ pL ∉ ms ∧ pL = pit
        then 1 else 0) = 0 := by
      rw [if_neg]
      rintro ⟨h0, -, -, hh⟩
      exact hd1 h0 hh.symm
    have eL2 : (if i ≠ 0 ∧ ¬ is_local_maximum g (i - 1) om = true ∧ pL ∈ ms ∧ pL = pit
        then 1 else 0) = 0 := by
      rw [if_neg]
      rintro ⟨h0, -, -, hh⟩
      exact hd1 h0 hh.symm
    have eR1 : (if jR < g.length ∧ is_local_maximum g jR om = true ∧ pR ∉ ms ∧ pR = pit
        then 1 else 0) = 0 := by
      rw [if_neg]
      rintro ⟨hRl, -, -, hh⟩
      exact hd2 hRl hh.symm
    have eR2 : (if jR < g.length ∧ ¬ is_local_maximum g jR om = true ∧ pR ∈ ms ∧ pR = pit
        then 1 else 0) = 0 := by
      rw [if_neg]
      rintro ⟨hRl, -, -, hh⟩
      exact hd2 hRl hh.symm
    rw [eL1, eL2, eR1, eR2]
    rcases hom with homi | homi | homi
    · -- om = i: the point itself is being erased and can never re-register
      have hpe : pold = pit := by
        have h1 := hpold (by omega)
        rw [homi, hit] at h1
        exact (Option.some_inj.mp h1).symm
      have hb0 : (if is_local_maximum g i om = true ∧ pit = pit then 1 else 0) = 0 := by
        rw [if_neg]
        rintro ⟨hc, -⟩
        rw [homi, ilm_self g i] at hc
        exact absurd hc (by simp)
      have htgt : (localMaxPoints (g.eraseIdx om)).count pit = 0 :=
        count_localMaxPoints_of_not_mem (hpoldit homi)
      have homlt : om < g.length := by omega
      rw [hb0, htgt, hpe]
      rcases count_cases (hcnt1 pit) with ⟨hm, hc⟩ | ⟨hm, hc⟩ <;> rw [hc] <;>
        (try simp [hm, homlt]) <;> omega
    · -- om = i + 1: the new point replaces the point after it
      have hio : i < om := by omega
      have htgt : (localMaxPoints (g.eraseIdx om)).count pit =
          if isLM (g.eraseIdx om) i = true then 1 else 0 :=
        count_localMaxPoints_at hnd2 (hf2IT hio)
      have hitval : (if is_local_maximum g i om = true ∧ pit = pit then 1 else 0) =
          if isLM (g.eraseIdx om) i = true then 1 else 0 := by
        rw [← hNewIT hio]
        by_cases hb : is_local_maximum g i om = true
        · rw [if_pos ⟨hb, rfl⟩, if_pos hb]
        · rw [if_neg (fun hc => hb hc.1), if_neg hb]
      rw [htgt, hitval]
      by_cases hpp : pit = pold
      · subst hpp
        by_cases homlt : om < g.length <;>
          rcases count_cases (hcnt1 pit) with ⟨hm, hc⟩ | ⟨hm, hc⟩ <;> rw [hc] <;>
          by_cases hb : isLM (g.eraseIdx om) i = true <;>
          (try simp [hb, hm, homlt]) <;> omega
      · have hpp2 : pold ≠ pit := fun h => hpp h.symm
        rw [hpit0 (Or.inr hpp)]
        by_cases hb : isLM (g.eraseIdx om) i = true <;>
          (try simp [hb, hpp2]) <;> omega
    · -- om = g.length: a fresh point is inserted
      have hio : i < om := by omega
      have htgt : (localMaxPoints (g.eraseIdx om)).count pit =
          if isLM (g.eraseIdx om) i = true then 1 else 0 :=
        count_localMaxPoints_at hnd2 (hf2IT hio)
      have hitval : (if is_local_maximum g i om = true ∧ pit = pit then 1 else 0) =
          if isLM (g.eraseIdx om) i = true then 1 else 0 := by
        rw [← hNewIT hio]
        by_cases hb : is_local_maximum g i om = true
        · rw [if_pos ⟨hb, rfl⟩, if_pos hb]
        · rw [if_neg (fun hc => hb hc.1), if_neg hb]
      have homlt : ¬ om < g.length := by omega
      rw [htgt, hitval, hpit0 (Or.inl homi)]
      by_cases hb : isLM (g.eraseIdx om) i = true <;>
        (try simp [hb, homlt]) <;> omega
  · -- q is not the inserted point
    have eIT : (if is_local_maximum g i om = true ∧ pit = q then 1 else 0) = 0 := by
      rw [if_neg]
      rintro ⟨-, hh⟩
      exact hqit hh
    rw [eIT]
    by_cases hqL : i ≠ 0 ∧ pL = q
    · obtain ⟨h0, hql⟩ := hqL
      subst hql
      have eR1 : (if jR < g.length ∧ is_local_maximum g jR om = true ∧ pR ∉ ms ∧ pR = pL
          then 1 else 0) = 0 := by
        rw [if_neg]
        rintro ⟨hRl, -, -, hh⟩
        exact hd3 h0 hRl hh.symm
      have eR2 : (if jR < g.length ∧ ¬ is_local_maximum g jR om = true ∧ pR ∈ ms ∧ pR = pL
          then 1 else 0) = 0 := by
        rw [if_neg]
        rintro ⟨hRl, -, -, hh⟩
        exact hd3 h0 hRl hh.symm
      have eOLD : (if om < g.length ∧ pold ∈ ms ∧ pold = pL then 1 else 0) = 0 := by
        rw [if_neg]
        rintro ⟨homlt, -, hh⟩
        exact hd4 homlt h0 hh
      have htgt : (localMaxPoints (g.eraseIdx om)).count pL =
          if isLM (g.eraseIdx om) (i - 1) = true then 1 else 0 :=
        count_localMaxPoints_at hnd2 (hf2L h0)
      rw [eR1, eR2, eOLD, htgt, ← hNewL h0]
      rcases count_cases (hcnt1 pL) with ⟨hm, hc⟩ | ⟨hm, hc⟩ <;> rw [hc] <;>
        by_cases hb : is_local_maximum g (i - 1) om = true <;>
        (try simp [hb, hm, h0]) <;> omega
    · have eL1 : (if i ≠ 0 ∧ is_local_maximum g (i - 1) om = true ∧ pL ∉ ms ∧ pL = q
          then 1 else 0) = 0 := by
        rw [if_neg]
        rintro ⟨h0, -, -, hh⟩
        exact hqL ⟨h0, hh⟩
      have eL2 : (if i ≠ 0 ∧ ¬ is_local_maximum g (i - 1) om = true ∧ pL ∈ ms ∧ pL = q
          then 1 else 0) = 0 := by
        rw [if_neg]
        rintro ⟨h0, -, -, hh⟩
        exact hqL ⟨h0, hh⟩
      rw [eL1, eL2]
      by_cases hqR : jR < g.length ∧ pR = q
      · obtain ⟨hRl, hqr⟩ := hqR
        subst hqr
        have eOLD : (if om < g.length ∧ pold ∈ ms ∧ pold = pR then 1 else 0) = 0 := by
          rw [if_neg]
          rintro ⟨homlt, -, hh⟩
          exact hd5 homlt hRl hh
        have htgt : (localMaxPoints (g.eraseIdx om)).count pR =
            if isLM (g.eraseIdx om) (if jR < om then jR else jR - 1) = true
              then 1 else 0 :=
          count_localMaxPoints_at hnd2 (hf2R hRl)
        rw [eOLD, htgt, ← hNewR hRl]
        rcases count_cases (hcnt1 pR) with ⟨hm, hc⟩ | ⟨hm, hc⟩ <;> rw [hc] <;>
          by_cases hb : is_local_maximum g jR om = true <;>
          (try simp [hb, hm, hRl]) <;> omega
      · have eR1 : (if jR < g.length ∧ is_local_maximum g jR om = true ∧ pR ∉ ms ∧ pR = q
            then 1 else 0) = 0 := by
          rw [if_neg]
          rintro ⟨hRl, -, -, hh⟩
          exact hqR ⟨hRl, hh⟩
        have eR2 : (if jR < g.length ∧ ¬ is_local_maximum g jR om = true ∧ pR ∈ ms ∧ pR = q
            then 1 else 0) = 0 := by
          rw [if_neg]
          rintro ⟨hRl, -, -, hh⟩
          exact hqR ⟨hRl, hh⟩
        rw [eR1, eR2]
        by_cases hqold : om < g.length ∧ pold = q
        · obtain ⟨homlt, hqo⟩ := hqold
          subst hqo
          have hpoldpit : pold ≠ pit := fun h => hqit h.symm
          have htgt : (localMaxPoints (g.eraseIdx om)).count pold = 0 :=
            count_localMaxPoints_of_not_mem (hpoldnot homlt hpoldpit)
          rw [htgt]
          rcases count_cases (hcnt1 pold) with ⟨hm, hc⟩ | ⟨hm, hc⟩ <;> rw [hc] <;>
            (try simp [hm, homlt]) <;> omega
        · have eOLD : (if om < g.length ∧ pold ∈ ms ∧ pold = q then 1 else 0) = 0 := by
            rw [if_neg]
            rintro ⟨homlt, -, hh⟩
            exact hqold ⟨homlt, hh⟩
          rw [eOLD]
          have heq := hother q (fun h => hqit h.symm)
            (fun homlt h => hqold ⟨homlt, h.symm⟩)
            (fun h0 h => hqL ⟨h0, h.symm⟩)
            (fun hRl h => hqR ⟨hRl, h.symm⟩)
          omega

/-! ### Sortedness of the maxima index through one `update_maxima` call -/

theorem sorted_stopped (f ms : List (A × V)) (j om : Nat)
    (h : List.Sorted mLE ms) :
    List.Sorted mLE (stopped_being_maximum f ms j om).1 := by
  cases hj : f[j]? with
  | none => rw [stopped_being_maximum, hj]; exact h
  | some p =>
    rw [stopped_fst f ms j om hj]
    split_ifs with hb
    · exact sorted_mxInsert p h
    · exact h

theorem sorted_convertPhase (g : List (A × V)) (om : Nat) (ms : List (A × V))
    (J : Option Nat) (h : List.Sorted mLE ms) :
    List.Sorted mLE (convertPhase g om ms J).1 := by
  cases J with
  | none => exact h
  | some j => exact sorted_stopped g ms j om h

theorem sorted_updateCore (g ms : List (A × V)) (i om : Nat) (pit : A × V)
    (JL JR : Option Nat) (h : List.Sorted mLE ms) :
    List.Sorted mLE (updateCore g ms i om pit JL JR) := by
  rw [updateCore]
  apply sorted_eraseOpt
  apply sorted_eraseOpt
  apply sorted_convertPhase
  apply sorted_convertPhase
  split_ifs with hb
  · exact sorted_mxInsert pit h
  · exact h

theorem sorted_update_maxima (g ms : List (A × V)) (i om : Nat) (pit : A × V)
    (hit : g[i]? = some pit) (h : List.Sorted mLE ms) :
    List.Sorted mLE (update_maxima g ms i om) := by
  rw [update_maxima_eq_core g ms i om pit hit]
  exact sorted_updateCore g ms i om pit _ _ h

/-! ### Position bookkeeping helpers -/

theorem getElem?_getD_eq {α : Type*} {l : List α} {j : Nat} (d : α)
    (h : j < l.length) : l[j]? = some (l[j]?.getD d) := by
  rw [List.getElem?_eq_getElem h]
  rfl

theorem argSorted_ne {f : List (A × V)} (h : ArgSorted f) {i j : Nat} {p q : A × V}
    (hij : i < j) (hp : f[i]? = some p) (hq : f[j]? = some q) : p ≠ q := by
  intro hpq
  subst hpq
  exact absurd (argSorted_rel h hij hp hq) (lt_irrefl p.1)

theorem not_mem_eraseIdx_self {f : List (A × V)} (hnd : f.Nodup) {i : Nat}
    {p : A × V} (hp : f[i]? = some p) : p ∉ f.eraseIdx i := by
  intro hmem
  obtain ⟨j, hj⟩ := List.mem_iff_getElem?.mp hmem
  rw [List.getElem?_eraseIdx] at hj
  by_cases hlt : j < i
  · rw [if_pos hlt] at hj
    exact absurd (nodup_getElem?_inj hnd hj hp) (by omega)
  · rw [if_neg hlt] at hj
    exact absurd (nodup_getElem?_inj hnd hj hp) (by omega)

theorem set_eq_self_of_getElem {α : Type*} {l : List α} {n : Nat} {a : α}
    (h : l[n]? = some a) : l.set n a = l := by
  apply List.ext_getElem?
  intro m
  rw [List.getElem?_set]
  by_cases hmn : n = m
  · subst hmn
    rw [if_pos rfl, if_pos (List.getElem?_eq_some.mp h).1, h]
  · rw [if_neg hmn]

/-- Removing a far-away position does not change whether a point is listed
among the local maxima: frame property for the count of `localMaxPoints`. -/
theorem count_lmp_eraseIdx (g : List (A × V)) (om : Nat) (x : A × V)
    (hnd : g.Nodup) (homlt : om < g.length)
    (hfar : ∀ j, g[j]? = some x → om ≠ j ∧ om ≠ j + 1 ∧ om ≠ j - 1) :
    (localMaxPoints g).count x = (localMaxPoints (g.eraseIdx om)).count x := by
  by_cases hx : x ∈ g
  · obtain ⟨j, hj⟩ := List.mem_iff_getElem?.mp hx
    obtain ⟨h1, h2, h3⟩ := hfar j hj
    have hjlen : j < g.length := (List.getElem?_eq_some.mp hj).1
    have hnd2 : (g.eraseIdx om).Nodup := (List.eraseIdx_sublist g om).nodup hnd
    have hj' : (g.eraseIdx om)[if j < om then j else j - 1]? = some x := by
      by_cases hlt : j < om
      · rw [if_pos hlt, List.getElem?_eraseIdx, if_pos hlt]
        exact hj
      · rw [if_neg hlt, List.getElem?_eraseIdx,
          if_neg (show ¬ j - 1 < om by omega), show j - 1 + 1 = j by omega]
        exact hj
    rw [count_localMaxPoints_at hnd hj, count_localMaxPoints_at hnd2 hj',
      ← ilm_eraseIdx g om j homlt hjlen (fun hh => h1 hh.symm),
      ilm_far g j om hjlen h1 h2 h3]
  · have hx2 : x ∉ g.eraseIdx om := fun hc => hx ((List.eraseIdx_sublist g om).subset hc)
    rw [count_localMaxPoints_of_not_mem hx, count_localMaxPoints_of_not_mem hx2]

/-! ### The representation invariant -/

/-- One call of `erase` preserves the representation invariant. -/
theorem inv_erase (s : FM A V) (a : A) (h : Inv s) : Inv (erase s a) := by
  obtain ⟨hA, hS, hC⟩ := h
  cases hfind : findArg a s.function with
  | none =>
    rw [erase_eq_of_none s a hfind]
    exact ⟨hA, hS, hC⟩
  | some i =>
    obtain ⟨p, hit, hpa⟩ := findArg_some a s.function i hfind
    rw [erase_eq_of_some s a i p hfind hit]
    have hi : i < s.function.length := (List.getElem?_eq_some.mp hit).1
    have hnd : s.function.Nodup := argSorted_nodup hA
    have hnd2 : (s.function.eraseIdx i).Nodup :=
      (List.eraseIdx_sublist s.function i).nodup hnd
    have hpL : i ≠ 0 → s.function[i - 1]? = some ((s.function[i - 1]?).getD p) :=
      fun h0 => getElem?_getD_eq p (by omega)
    have hpR : i + 1 < s.function.length →
        s.function[i + 1]? = some ((s.function[i + 1]?).getD p) :=
      fun hR => getElem?_getD_eq p hR
    have hcnt1 : ∀ x : A × V, s.maxima.count x ≤ 1 := by
      intro x
      rw [hC x]
      exact count_localMaxPoints_le_one hnd x
    have hpit0 : i = s.function.length ∨ p ≠ p → s.maxima.count p = 0 := by
      intro hh
      rcases hh with hh | hh
      · exact absurd hh (by omega)
      · exact absurd rfl hh
    have hother : ∀ x : A × V, x ≠ p → (i < s.function.length → x ≠ p) →
        (i ≠ 0 → x ≠ (s.function[i - 1]?).getD p) →
        (i + 1 < s.function.length → x ≠ (s.function[i + 1]?).getD p) →
        s.maxima.count x = (localMaxPoints (s.function.eraseIdx i)).count x := by
      intro x hx1 _ hxL hxR
      rw [hC x]
      apply count_lmp_eraseIdx s.function i x hnd hi
      intro j hj
      refine ⟨?_, ?_, ?_⟩
      · intro heq
        rw [← heq, hit] at hj
        exact hx1 (Option.some_inj.mp hj).symm
      · intro heq
        have h0 : i ≠ 0 := by omega
        have hji : j = i - 1 := by omega
        subst hji
        rw [hpL h0] at hj
        exact hxL h0 (Option.some_inj.mp hj).symm
      · intro heq
        by_cases hj0 : j = 0
        · have hij : i = j := by omega
          rw [← hij, hit] at hj
          exact hx1 (Option.some_inj.mp hj).symm
        · have hji : j = i + 1 := by omega
          subst hji
          have hjlen : i + 1 < s.function.length := (List.getElem?_eq_some.mp hj).1
          rw [hpR hjlen] at hj
          exact hxR hjlen (Option.some_inj.mp hj).symm
    refine ⟨List.Pairwise.sublist (List.eraseIdx_sublist s.function i) hA, ?_, ?_⟩
    · split_ifs with hm
      · exact sorted_erase_pt p (sorted_update_maxima s.function s.maxima i i p hit hS)
      · exact sorted_update_maxima s.function s.maxima i i p hit hS
    · intro q
      have hmain := op_maxima_count s.function s.maxima i i (i + 1) p p
        ((s.function[i - 1]?).getD p) ((s.function[i + 1]?).getD p)
        hi (le_of_lt hi) (Or.inl rfl) hit (fun _ => hit)
        (by rw [if_neg (by omega : ¬ i = i + 1)])
        hpL hpR
        (fun h0 => (argSorted_ne hA (show i - 1 < i by omega) (hpL h0) hit).symm)
        (fun hR => argSorted_ne hA (by omega) hit (hpR hR))
        (fun h0 hR => argSorted_ne hA (show i - 1 < i + 1 by omega) (hpL h0) (hpR hR))
        (fun _ h0 => (argSorted_ne hA (show i - 1 < i by omega) (hpL h0) hit).symm)
        (fun _ hR => argSorted_ne hA (by omega) hit (hpR hR))
        hnd2 hcnt1 hpit0
        (fun _ hh => absurd rfl hh)
        (fun _ => not_mem_eraseIdx_self hnd hit)
        hother q
      by_cases hm : p ∈ s.maxima
      · rw [if_pos hm]
        rw [if_pos ⟨hi, hm⟩] at hmain
        exact hmain
      · rw [if_neg hm]
        rw [if_neg (fun hh => hm hh.2)] at hmain
        exact hmain

theorem set_value_eq_fresh (s : FM A V) (a : A) (v : V)
    (h : s.function[lowerBound a s.function]? = none ∨
      ∃ prev, s.function[lowerBound a s.function]? = some prev ∧ a < prev.1) :
    set_value s a v =
      FM.mk (s.function.insertIdx (lowerBound a s.function) (a, v))
        (update_maxima (s.function.insertIdx (lowerBound a s.function) (a, v))
          s.maxima (lowerBound a s.function)
          (s.function.insertIdx (lowerBound a s.function) (a, v)).length) := by
  rcases h with h | ⟨prev, hp, hlt⟩
  · rw [set_value]
    simp only [h]
  · rw [set_value]
    simp only [hp, if_pos hlt]

theorem set_value_eq_diff (s : FM A V) (a : A) (v : V) (prev : A × V)
    (hp : s.function[lowerBound a s.function]? = some prev) (hge : ¬ a < prev.1) :
    set_value s a v =
      FM.mk ((s.function.insertIdx (lowerBound a s.function) (a, v)).eraseIdx
          (lowerBound a s.function + 1))
        (if prev ∈ s.maxima then
          (update_maxima (s.function.insertIdx (lowerBound a s.function) (a, v))
            s.maxima (lowerBound a s.function) (lowerBound a s.function + 1)).erase prev
        else
          update_maxima (s.function.insertIdx (lowerBound a s.function) (a, v))
            s.maxima (lowerBound a s.function) (lowerBound a s.function + 1)) := by
  rw [set_value]
  simp only [hp, if_neg hge]

theorem pairwise_of_getElem? {α : Type*} {R : α → α → Prop} {l : List α}
    (h : ∀ (i j : Nat) (p q : α), i < j → l[i]? = some p → l[j]? = some q → R p q) :
    List.Pairwise R l := by
  rw [List.pairwise_iff_getElem]
  intro i j hi hj hij
  exact h i j _ _ hij (List.getElem?_eq_getElem hi) (List.getElem?_eq_getElem hj)

/-- Inserting a fresh point at its lower-bound position keeps the point
store strictly argument-sorted. -/
theorem argSorted_insertIdx_fresh {f : List (A × V)} (hA : ArgSorted f) (a : A) (v : V)
    (hfresh : ∀ prev, f[lowerBound a f]? = some prev → a < prev.1) :
    ArgSorted (f.insertIdx (lowerBound a f) (a, v)) := by
  have hpos := lowerBound_le_length a f
  unfold ArgSorted
  apply pairwise_of_getElem?
  intro i j p q hij hp hq
  rw [getElem?_insertIdx_of_le _ _ _ hpos] at hp hq
  by_cases hi1 : i < lowerBound a f
  · rw [if_pos hi1] at hp
    by_cases hj1 : j < lowerBound a f
    · rw [if_pos hj1] at hq
      exact argSorted_rel hA hij hp hq
    · by_cases hj2 : j = lowerBound a f
      · rw [if_neg hj1, if_pos hj2] at hq
        obtain rfl : (a, v) = q := Option.some_inj.mp hq
        exact lowerBound_prefix_lt a f i p hi1 hp
      · rw [if_neg hj1, if_neg hj2] at hq
        exact argSorted_rel hA (show i < j - 1 by omega) hp hq
  · by_cases hi2 : i = lowerBound a f
    · rw [if_neg hi1, if_pos hi2] at hp
      obtain rfl : (a, v) = p := Option.some_inj.mp hp
      have hj1 : ¬ j < lowerBound a f := by omega
      have hj2 : j ≠ lowerBound a f := by omega
      rw [if_neg hj1, if_neg hj2] at hq
      have hjlen : j - 1 < f.length := (List.getElem?_eq_some.mp hq).1
      have hplen : lowerBound a f < f.length := by omega
      obtain ⟨prev, hprev⟩ : ∃ prev, f[lowerBound a f]? = some prev :=
        ⟨_, List.getElem?_eq_getElem hplen⟩
      have halt : a < prev.1 := hfresh prev hprev
      show a < q.1
      by_cases hje : j - 1 = lowerBound a f
      · rw [hje, hprev] at hq
        obtain rfl : prev = q := Option.some_inj.mp hq
        exact halt
      · exact lt_trans halt
          (argSorted_rel hA (show lowerBound a f < j - 1 by omega) hprev hq)
    · rw [if_neg hi1, if_neg hi2] at hp
      have hj1 : ¬ j < lowerBound a f := by omega
      have hj2 : j ≠ lowerBound a f := by omega
      rw [if_neg hj1, if_neg hj2] at hq
      exact argSorted_rel hA (show i - 1 < j - 1 by omega) hp hq

/-- Overwriting the value of an existing point (same argument) keeps the
point store strictly argument-sorted. -/
theorem argSorted_set {f : List (A × V)} (hA : ArgSorted f) {pos : Nat}
    {prev : A × V} (hp : f[pos]? = some prev) (a : A) (v : V) (ha : prev.1 = a) :
    ArgSorted (f.set pos (a, v)) := by
  have hmap : (f.set pos (a, v)).map Prod.fst = f.map Prod.fst := by
    rw [List.map_set]
    apply set_eq_self_of_getElem
    rw [List.getElem?_map, hp]
    simp [ha]
  have h1 : List.Pairwise (fun x y => x < y) (List.map Prod.fst f) := by
    rw [List.pairwise_map]
    exact hA
  rw [← hmap, List.pairwise_map] at h1
  exact h1

/-- `set_value` preserves the representation invariant when the argument is
not yet present (the non-`diff` paths of src/function_maxima.h:66-96). -/
theorem inv_set_value_fresh (s : FM A V) (a : A) (v : V) (h : Inv s)
    (hfresh : ∀ prev, s.function[lowerBound a s.function]? = some prev → a < prev.1) :
    Inv (set_value s a v) := by
  obtain ⟨hA, hS, hC⟩ := h
  have hpos : lowerBound a s.function ≤ s.function.length :=
    lowerBound_le_length a s.function
  have hcase : s.function[lowerBound a s.function]? = none ∨
      ∃ prev, s.function[lowerBound a s.function]? = some prev ∧ a < prev.1 := by
    cases hp : s.function[lowerBound a s.function]? with
    | none => exact Or.inl rfl
    | some prev => exact Or.inr ⟨prev, rfl, hfresh prev hp⟩
  rw [set_value_eq_fresh s a v hcase]
  have hlen1 : (s.function.insertIdx (lowerBound a s.function) (a, v)).length
      = s.function.length + 1 := List.length_insertIdx _ _ hpos
  have hA1 : ArgSorted (s.function.insertIdx (lowerBound a s.function) (a, v)) :=
    argSorted_insertIdx_fresh hA a v hfresh
  have hnd1 : (s.function.insertIdx (lowerBound a s.function) (a, v)).Nodup :=
    argSorted_nodup hA1
  have hnd : s.function.Nodup := argSorted_nodup hA
  have hit : (s.function.insertIdx (lowerBound a s.function)
      (a, v))[lowerBound a s.function]? = some (a, v) := by
    rw [getElem?_insertIdx_of_le _ _ _ hpos, if_neg (lt_irrefl _), if_pos rfl]
  have heid : (s.function.insertIdx (lowerBound a s.function) (a, v)).eraseIdx
      (s.function.insertIdx (lowerBound a s.function) (a, v)).length
      = s.function.insertIdx (lowerBound a s.function) (a, v) :=
    List.eraseIdx_of_length_le (le_refl _)
  obtain ⟨jRv, hjR, hjlb⟩ : ∃ jRv, (jRv =
      if (s.function.insertIdx (lowerBound a s.function) (a, v)).length
        = lowerBound a s.function + 1
      then lowerBound a s.function + 2 else lowerBound a s.function + 1) ∧
      lowerBound a s.function < jRv := ⟨_, rfl, by split_ifs <;> omega⟩
  have hpL : lowerBound a s.function ≠ 0 →
      (s.function.insertIdx (lowerBound a s.function) (a, v))[lowerBound a
        s.function - 1]? = some (((s.function.insertIdx (lowerBound a s.function)
        (a, v))[lowerBound a s.function - 1]?).getD (a, v)) :=
    fun h0 => getElem?_getD_eq (a, v) (by omega)
  have hpR : jRv < (s.function.insertIdx (lowerBound a s.function) (a, v)).length →
      (s.function.insertIdx (lowerBound a s.function) (a, v))[jRv]? =
        some (((s.function.insertIdx (lowerBound a s.function) (a, v))[jRv]?).getD (a, v)) :=
    fun hR => getElem?_getD_eq (a, v) hR
  have hcnt1 : ∀ x : A × V, s.maxima.count x ≤ 1 := by
    intro x
    rw [hC x]
    exact count_localMaxPoints_le_one hnd x
  have hnotmem : (a, v) ∉ s.function := by
    intro hmem
    obtain ⟨j, hj⟩ := List.mem_iff_getElem?.mp hmem
    by_cases hjlt : j < lowerBound a s.function
    · exact absurd (lowerBound_prefix_lt a s.function j (a, v) hjlt hj) (lt_irrefl a)
    · have hjlen : j < s.function.length := (List.getElem?_eq_some.mp hj).1
      obtain ⟨prev, hprev⟩ : ∃ prev, s.function[lowerBound a s.function]? = some prev :=
        ⟨_, List.getElem?_eq_getElem (by omega)⟩
      have halt := hfresh prev hprev
      by_cases hje : j = lowerBound a s.function
      · rw [hje, hprev] at hj
        obtain heq : prev = (a, v) := Option.some_inj.mp hj
        rw [heq] at halt
        exact absurd halt (lt_irrefl a)
      · have hrel := argSorted_rel hA (show lowerBound a s.function < j by omega) hprev hj
        exact absurd (lt_trans halt hrel) (lt_irrefl a)
  have hpit0 : s.maxima.count (a, v) = 0 := by
    rw [hC]
    exact count_localMaxPoints_of_not_mem hnotmem
  have hother : ∀ x : A × V, x ≠ (a, v) →
      ((s.function.insertIdx (lowerBound a s.function) (a, v)).length <
        (s.function.insertIdx (lowerBound a s.function) (a, v)).length → x ≠ (a, v)) →
      (lowerBound a s.function ≠ 0 →
        x ≠ ((s.function.insertIdx (lowerBound a s.function)
          (a, v))[lowerBound a s.function - 1]?).getD (a, v)) →
      (jRv < (s.function.insertIdx (lowerBound a s.function) (a, v)).length →
        x ≠ ((s.function.insertIdx (lowerBound a s.function) (a, v))[jRv]?).getD (a, v)) →
      s.maxima.count x = (localMaxPoints
        ((s.function.insertIdx (lowerBound a s.function) (a, v)).eraseIdx
          (s.function.insertIdx (lowerBound a s.function) (a, v)).length)).count x := by
    intro x hx1 _ hxL hxR
    rw [hC x, heid]
    have hfar : ∀ j, (s.function.insertIdx (lowerBound a s.function) (a, v))[j]? =
        some x → lowerBound a s.function ≠ j ∧ lowerBound a s.function ≠ j + 1 ∧
        lowerBound a s.function ≠ j - 1 := by
      intro j hj
      refine ⟨?_, ?_, ?_⟩
      · intro heq
        rw [← heq, hit] at hj
        exact hx1 (Option.some_inj.mp hj).symm
      · intro heq
        have h0 : lowerBound a s.function ≠ 0 := by omega
        have hji : j = lowerBound a s.function - 1 := by omega
        subst hji
        rw [hpL h0] at hj
        exact hxL h0 (Option.some_inj.mp hj).symm
      · intro heq
        by_cases hj0 : j = 0
        · have hpj : lowerBound a s.function = j := by omega
          rw [← hpj, hit] at hj
          exact hx1 (Option.some_inj.mp hj).symm
        · have hji : j = lowerBound a s.function + 1 := by omega
          have hjlen : j < (s.function.insertIdx (lowerBound a s.function) (a, v)).length :=
            (List.getElem?_eq_some.mp hj).1
          have hjRv : jRv = lowerBound a s.function + 1 := by
            rw [hjR, if_neg (by omega :
              ¬ (s.function.insertIdx (lowerBound a s.function) (a, v)).length
                = lowerBound a s.function + 1)]
          rw [hji, ← hjRv, hpR (by omega)] at hj
          exact hxR (by omega) (Option.some_inj.mp hj).symm
    have hstep := count_lmp_eraseIdx (s.function.insertIdx (lowerBound a s.function)
      (a, v)) (lowerBound a s.function) x hnd1 (by omega) hfar
    rw [eraseIdx_insertIdx_self _ _ _ hpos] at hstep
    exact hstep.symm
  refine ⟨hA1, sorted_update_maxima _ _ _ _ (a, v) hit hS, ?_⟩
  intro q
  have hmain := op_maxima_count (s.function.insertIdx (lowerBound a s.function) (a, v))
    s.maxima (lowerBound a s.function)
    (s.function.insertIdx (lowerBound a s.function) (a, v)).length jRv
    (a, v) (a, v)
    (((s.function.insertIdx (lowerBound a s.function) (a, v))[lowerBound a
      s.function - 1]?).getD (a, v))
    (((s.function.insertIdx (lowerBound a s.function) (a, v))[jRv]?).getD (a, v))
    (by omega) (le_refl _) (Or.inr (Or.inr rfl)) hit
    (fun hh => absurd hh (lt_irrefl _)) hjR hpL hpR
    (fun h0 => (argSorted_ne hA1 (show lowerBound a s.function - 1 <
      lowerBound a s.function by omega) (hpL h0) hit).symm)
    (fun hR => argSorted_ne hA1 hjlb hit (hpR hR))
    (fun h0 hR => argSorted_ne hA1 (show lowerBound a s.function - 1 < jRv by omega)
      (hpL h0) (hpR hR))
    (fun hh => absurd hh (lt_irrefl _))
    (fun hh => absurd hh (lt_irrefl _))
    (by rw [heid]; exact hnd1) hcnt1
    (fun _ => hpit0)
    (fun hh => absurd hh (lt_irrefl _))
    (fun hh => absurd hh (by omega))
    hother q
  rw [if_neg (fun hh => lt_irrefl _ hh.1), heid] at hmain
  exact hmain

/-- `set_value` preserves the representation invariant when an equivalent
argument is already present (the `diff` path of src/function_maxima.h:66-96). -/
theorem inv_set_value_diff (s : FM A V) (a : A) (v : V) (prev : A × V) (h : Inv s)
    (hp : s.function[lowerBound a s.function]? = some prev) (hge : ¬ a < prev.1) :
    Inv (set_value s a v) := by
  obtain ⟨hA, hS, hC⟩ := h
  have hpos : lowerBound a s.function ≤ s.function.length :=
    lowerBound_le_length a s.function
  have hposlt : lowerBound a s.function < s.function.length :=
    (List.getElem?_eq_some.mp hp).1
  have hpa : prev.1 = a :=
    le_antisymm (not_lt.mp hge) (not_lt.mp (lowerBound_at_not_lt a s.function prev hp))
  rw [set_value_eq_diff s a v prev hp hge]
  have hlen1 : (s.function.insertIdx (lowerBound a s.function) (a, v)).length
      = s.function.length + 1 := List.length_insertIdx _ _ hpos
  have hnd : s.function.Nodup := argSorted_nodup hA
  have hit : (s.function.insertIdx (lowerBound a s.function)
      (a, v))[lowerBound a s.function]? = some (a, v) := by
    rw [getElem?_insertIdx_of_le _ _ _ hpos, if_neg (lt_irrefl _), if_pos rfl]
  have hpold1 : (s.function.insertIdx (lowerBound a s.function)
      (a, v))[lowerBound a s.function + 1]? = some prev := by
    rw [getElem?_insertIdx_of_le _ _ _ hpos,
      if_neg (by omega : ¬ lowerBound a s.function + 1 < lowerBound a s.function),
      if_neg (by omega : ¬ lowerBound a s.function + 1 = lowerBound a s.function)]
    simpa using hp
  have hsetid : (s.function.insertIdx (lowerBound a s.function) (a, v)).eraseIdx
      (lowerBound a s.function + 1) = s.function.set (lowerBound a s.function) (a, v) :=
    eraseIdx_insertIdx_succ _ _ _ hposlt
  have hA2 : ArgSorted (s.function.set (lowerBound a s.function) (a, v)) :=
    argSorted_set hA hp a v hpa
  have hnd2 : ((s.function.insertIdx (lowerBound a s.function) (a, v)).eraseIdx
      (lowerBound a s.function + 1)).Nodup := by
    rw [hsetid]
    exact argSorted_nodup hA2
  have hgL : lowerBound a s.function ≠ 0 →
      (s.function.insertIdx (lowerBound a s.function)
        (a, v))[lowerBound a s.function - 1]? =
      s.function[lowerBound a s.function - 1]? := by
    intro h0
    rw [getElem?_insertIdx_of_le _ _ _ hpos, if_pos (by omega)]
  have hgR : lowerBound a s.function + 2 <
      (s.function.insertIdx (lowerBound a s.function) (a, v)).length →
      (s.function.insertIdx (lowerBound a s.function)
        (a, v))[lowerBound a s.function + 2]? =
      s.function[lowerBound a s.function + 1]? := by
    intro _
    rw [getElem?_insertIdx_of_le _ _ _ hpos,
      if_neg (by omega : ¬ lowerBound a s.function + 2 < lowerBound a s.function),
      if_neg (by omega : ¬ lowerBound a s.function + 2 = lowerBound a s.function)]
    congr 1
  have hpL : lowerBound a s.function ≠ 0 →
      (s.function.insertIdx (lowerBound a s.function)
        (a, v))[lowerBound a s.function - 1]? =
      some (((s.function.insertIdx (lowerBound a s.function)
        (a, v))[lowerBound a s.function - 1]?).getD (a, v)) :=
    fun h0 => getElem?_getD_eq (a, v) (by omega)
  have hpR : lowerBound a s.function + 2 <
      (s.function.insertIdx (lowerBound a s.function) (a, v)).length →
      (s.function.insertIdx (lowerBound a s.function)
        (a, v))[lowerBound a s.function + 2]? =
      some (((s.function.insertIdx (lowerBound a s.function)
        (a, v))[lowerBound a s.function + 2]?).getD (a, v)) :=
    fun hR => getElem?_getD_eq (a, v) hR
  have hLlt : ∀ h0 : lowerBound a s.function ≠ 0,
      (((s.function.insertIdx (lowerBound a s.function)
        (a, v))[lowerBound a s.function - 1]?).getD (a, v)).1 < a := by
    intro h0
    exact lowerBound_prefix_lt a s.function (lowerBound a s.function - 1) _
      (by omega) ((hgL h0).symm.trans (hpL h0))
  have hRgt : ∀ _ : lowerBound a s.function + 2 <
      (s.function.insertIdx (lowerBound a s.function) (a, v)).length,
      a < (((s.function.insertIdx (lowerBound a s.function)
        (a, v))[lowerBound a s.function + 2]?).getD (a, v)).1 := by
    intro hR
    have hrel := argSorted_rel hA (show lowerBound a s.function <
        lowerBound a s.function + 1 by omega) hp ((hgR hR).symm.trans (hpR hR))
    rw [hpa] at hrel
    exact hrel
  have hd1 : lowerBound a s.function ≠ 0 → (a, v) ≠
      ((s.function.insertIdx (lowerBound a s.function)
        (a, v))[lowerBound a s.function - 1]?).getD (a, v) := by
    intro h0 he
    have hlt := hLlt h0
    rw [← he] at hlt
    exact lt_irrefl a hlt
  have hd2 : lowerBound a s.function + 2 <
      (s.function.insertIdx (lowerBound a s.function) (a, v)).length → (a, v) ≠
      ((s.function.insertIdx (lowerBound a s.function)
        (a, v))[lowerBound a s.function + 2]?).getD (a, v) := by
    intro hR he
    have hlt := hRgt hR
    rw [← he] at hlt
    exact lt_irrefl a hlt
  have hcnt1 : ∀ x : A × V, s.maxima.count x ≤ 1 := by
    intro x
    rw [hC x]
    exact count_localMaxPoints_le_one hnd x
  have hnm : (a, v) ≠ prev → (a, v) ∉ s.function := by
    intro hne hmem
    obtain ⟨j, hj⟩ := List.mem_iff_getElem?.mp hmem
    by_cases hjlt : j < lowerBound a s.function
    · exact absurd (lowerBound_prefix_lt a s.function j (a, v) hjlt hj) (lt_irrefl a)
    · by_cases hje : j = lowerBound a s.function
      · rw [hje, hp] at hj
        exact hne (Option.some_inj.mp hj).symm
      · have hrel := argSorted_rel hA (show lowerBound a s.function < j by omega) hp hj
        rw [hpa] at hrel
        exact lt_irrefl a hrel
  have hpit0 : lowerBound a s.function + 1 =
      (s.function.insertIdx (lowerBound a s.function) (a, v)).length ∨
      (a, v) ≠ prev → s.maxima.count (a, v) = 0 := by
    intro hh
    rcases hh with hh | hh
    · rw [hlen1] at hh
      exact absurd hh (by omega)
    · rw [hC]
      exact count_localMaxPoints_of_not_mem (hnm hh)
  have hpoldnot : lowerBound a s.function + 1 <
      (s.function.insertIdx (lowerBound a s.function) (a, v)).length →
      prev ≠ (a, v) →
      prev ∉ (s.function.insertIdx (lowerBound a s.function) (a, v)).eraseIdx
        (lowerBound a s.function + 1) := by
    intro _ hne hmem
    rw [hsetid] at hmem
    obtain ⟨j, hj⟩ := List.mem_iff_getElem?.mp hmem
    rw [List.getElem?_set] at hj
    by_cases hje : lowerBound a s.function = j
    · rw [if_pos hje, if_pos hposlt] at hj
      exact hne (Option.some_inj.mp hj).symm
    · rw [if_neg hje] at hj
      exact hje (nodup_getElem?_inj hnd hj hp).symm
  have hother : ∀ x : A × V, x ≠ (a, v) →
      (lowerBound a s.function + 1 <
        (s.function.insertIdx (lowerBound a s.function) (a, v)).length → x ≠ prev) →
      (lowerBound a s.function ≠ 0 →
        x ≠ ((s.function.insertIdx (lowerBound a s.function)
          (a, v))[lowerBound a s.function - 1]?).getD (a, v)) →
      (lowerBound a s.function + 2 <
        (s.function.insertIdx (lowerBound a s.function) (a, v)).length →
        x ≠ ((s.function.insertIdx (lowerBound a s.function)
          (a, v))[lowerBound a s.function + 2]?).getD (a, v)) →
      s.maxima.count x = (localMaxPoints
        ((s.function.insertIdx (lowerBound a s.function) (a, v)).eraseIdx
          (lowerBound a s.function + 1))).count x := by
    intro x hx1 hxold hxL hxR
    have hxo : x ≠ prev := hxold (by rw [hlen1]; omega)
    by_cases hvv : (a, v) = prev
    · rw [hC x, hsetid, set_eq_self_of_getElem
        (show s.function[lowerBound a s.function]? = some (a, v) by rw [hp, hvv])]
    · have hnmem : (a, v) ∉ s.function := hnm hvv
      have hnd1 : (s.function.insertIdx (lowerBound a s.function) (a, v)).Nodup :=
        (List.perm_insertIdx (a, v) s.function hpos).nodup_iff.mpr (List.nodup_cons.mpr ⟨hnmem, hnd⟩)
      have hfar1 : ∀ j, (s.function.insertIdx (lowerBound a s.function)
          (a, v))[j]? = some x → lowerBound a s.function ≠ j ∧
          lowerBound a s.function ≠ j + 1 ∧ lowerBound a s.function ≠ j - 1 := by
        intro j hj
        refine ⟨?_, ?_, ?_⟩
        · intro heq
          rw [← heq, hit] at hj
          exact hx1 (Option.some_inj.mp hj).symm
        · intro heq
          have h0 : lowerBound a s.function ≠ 0 := by omega
          have hji : j = lowerBound a s.function - 1 := by omega
          subst hji
          rw [hpL h0] at hj
          exact hxL h0 (Option.some_inj.mp hj).symm
        · intro heq
          by_cases hj0 : j = 0
          · have hpj : lowerBound a s.function = j := by omega
            rw [← hpj, hit] at hj
            exact hx1 (Option.some_inj.mp hj).symm
          · have hji : j = lowerBound a s.function + 1 := by omega
            rw [hji, hpold1] at hj
            exact hxo (Option.some_inj.mp hj).symm
      have hfar2 : ∀ j, (s.function.insertIdx (lowerBound a s.function)
          (a, v))[j]? = some x → lowerBound a s.function + 1 ≠ j ∧
          lowerBound a s.function + 1 ≠ j + 1 ∧ lowerBound a s.function + 1 ≠ j - 1 := by
        intro j hj
        refine ⟨?_, ?_, ?_⟩
        · intro heq
          rw [← heq, hpold1] at hj
          exact hxo (Option.some_inj.mp hj).symm
        · intro heq
          have hji : j = lowerBound a s.function := by omega
          rw [hji, hit] at hj
          exact hx1 (Option.some_inj.mp hj).symm
        · intro heq
          have hji : j = lowerBound a s.function + 2 := by omega
          have hjlen : j < (s.function.insertIdx (lowerBound a s.function)
              (a, v)).length := (List.getElem?_eq_some.mp hj).1
          rw [hji, hpR (by omega)] at hj
          exact hxR (by omega) (Option.some_inj.mp hj).symm
      have hstep1 := count_lmp_eraseIdx (s.function.insertIdx (lowerBound a s.function)
        (a, v)) (lowerBound a s.function) x hnd1 (by rw [hlen1]; omega) hfar1
      have hstep2 := count_lmp_eraseIdx (s.function.insertIdx (lowerBound a s.function)
        (a, v)) (lowerBound a s.function + 1) x hnd1 (by rw [hlen1]; omega) hfar2
      rw [eraseIdx_insertIdx_self _ _ _ hpos] at hstep1
      rw [hC x]
      exact hstep1.symm.trans hstep2
  refine ⟨?_, ?_, ?_⟩
  · show ArgSorted ((s.function.insertIdx (lowerBound a s.function) (a, v)).eraseIdx
      (lowerBound a s.function + 1))
    rw [hsetid]
    exact hA2
  · show List.Sorted mLE _
    split_ifs with hm
    · exact sorted_erase_pt prev (sorted_update_maxima _ _ _ _ (a, v) hit hS)
    · exact sorted_update_maxima _ _ _ _ (a, v) hit hS
  · intro q
    have hmain := op_maxima_count (s.function.insertIdx (lowerBound a s.function) (a, v))
      s.maxima (lowerBound a s.function) (lowerBound a s.function + 1)
      (lowerBound a s.function + 2) (a, v) prev
      (((s.function.insertIdx (lowerBound a s.function)
        (a, v))[lowerBound a s.function - 1]?).getD (a, v))
      (((s.function.insertIdx (lowerBound a s.function)
        (a, v))[lowerBound a s.function + 2]?).getD (a, v))
      (by rw [hlen1]; omega) (by rw [hlen1]; omega) (Or.inr (Or.inl rfl)) hit
      (fun _ => hpold1) (by rw [if_pos rfl]) hpL hpR
      hd1 hd2
      (fun h0 hR he => by
        have h1 := hLlt h0
        have h2 := hRgt hR
        rw [he] at h1
        exact lt_irrefl _ (lt_trans h1 h2))
      (fun _ h0 he => by
        have h1 := hLlt h0
        rw [← he, hpa] at h1
        exact lt_irrefl a h1)
      (fun _ hR he => by
        have h1 := hRgt hR
        rw [← he, hpa] at h1
        exact lt_irrefl a h1)
      hnd2 hcnt1 hpit0 hpoldnot
      (fun hh => absurd hh (by omega))
      hother q
    by_cases hm : prev ∈ s.maxima
    · rw [if_pos hm]
      rw [if_pos ⟨by rw [hlen1]; omega, hm⟩] at hmain
      exact hmain
    · rw [if_neg hm]
      rw [if_neg (fun hh => hm hh.2)] at hmain
      exact hmain

/-- `set_value` preserves the representation invariant. -/
theorem inv_set_value (s : FM A V) (a : A) (v : V) (h : Inv s) :
    Inv (set_value s a v) := by
  cases hp : s.function[lowerBound a s.function]? with
  | none =>
    apply inv_set_value_fresh s a v h
    intro prev hprev
    rw [hp] at hprev
    exact absurd hprev (by simp)
  | some prev =>
    by_cases hlt : a < prev.1
    · apply inv_set_value_fresh s a v h
      intro prev2 hprev2
      rw [hp] at hprev2
      obtain rfl : prev = prev2 := Option.some_inj.mp hprev2
      exact hlt
    · exact inv_set_value_diff s a v prev h hp hlt

/-- The default-constructed object satisfies the invariant. -/
theorem inv_empty : Inv (emptyFM (A := A) (V := V)) := by
  refine ⟨List.Pairwise.nil, List.sorted_nil, ?_⟩
  intro q
  rfl

/-- Every reachable state satisfies the representation invariant. -/
theorem reachable_inv {s : FM A V} (h : Reachable s) : Inv s := by
  induction h with
  | empty => exact inv_empty
  | step_set a v hr ih => exact inv_set_value _ a v ih
  | step_erase a hr ih => exact inv_erase _ a ih

/-! ### Counting bridges (the product `BEq` instance versus the one derived
from decidable equality) -/

theorem count_beq_bridge (l : List (A × V)) (q : A × V) :
    l.count q = @List.count (A × V) instBEqOfDecidableEq q l := by
  rw [List.count_eq_countP, @List.count_eq_countP _ instBEqOfDecidableEq]
  apply List.countP_congr
  intro x _
  constructor
  · intro h
    exact decide_eq_true (beq_iff_eq.mp h)
  · intro h
    exact beq_iff_eq.mpr (of_decide_eq_true h)

theorem perm_of_count_eq {l₁ l₂ : List (A × V)} (h : ∀ q, l₁.count q = l₂.count q) :
    l₁.Perm l₂ := by
  apply List.perm_iff_count.mpr
  intro q
  rw [← count_beq_bridge, ← count_beq_bridge]
  exact h q

theorem nodup_of_count_le_one {l : List (A × V)} (h : ∀ q, l.count q ≤ 1) :
    l.Nodup := by
  apply List.nodup_iff_count_le_one.mpr
  intro q
  rw [← count_beq_bridge]
  exact h q

/-- Every reachable maxima index is duplicate-free. -/
theorem maxima_nodup {s : FM A V} (h : Inv s) : s.maxima.Nodup := by
  apply nodup_of_count_le_one
  intro q
  rw [h.2.2 q]
  exact count_localMaxPoints_le_one (argSorted_nodup h.1) q

/-- Two distinct points related by `mLE` compare strictly by `comp_by_maxima`. -/
theorem comp_by_maxima_of_mLE_ne {p q : A × V} (h1 : mLE p q) (h2 : p ≠ q) :
    comp_by_maxima p q = true := by
  rw [mLE_iff] at h1
  rw [comp_by_maxima]
  rcases h1 with h | ⟨he, ha⟩
  · simp [h]
  · have hane : p.1 ≠ q.1 := fun hfst => h2 (Prod.ext hfst he)
    have halt : p.1 < q.1 := lt_of_le_of_ne ha hane
    simp [he, halt, lt_irrefl]

/-- C1: Invariant I1.  For every state reachable by any sequence of
`set_value` and `erase` calls from the empty structure, the maxima index is,
as a multiset, exactly the set of points of the point store that satisfy
`is_local_maximum` with no omission. -/
theorem claim_C1 {s : FM A V} (h : Reachable s) :
    s.maxima.Perm (localMaxPoints s.function) :=
  perm_of_count_eq (reachable_inv h).2.2

theorem claim_C1_witness :
    Reachable (set_value (set_value (emptyFM : FM Int Int) 0 3) 1 5) ∧
    (set_value (set_value (emptyFM : FM Int Int) 0 3) 1 5).maxima.Perm
      (localMaxPoints (set_value (set_value (emptyFM : FM Int Int) 0 3) 1 5).function) :=
  ⟨Reachable.step_set 1 5 (Reachable.step_set 0 3 Reachable.empty),
   claim_C1 (Reachable.step_set 1 5 (Reachable.step_set 0 3 Reachable.empty))⟩

/-- C8: for every reachable state, the maxima listing from `mx_begin` to
`mx_end` is strictly increasing for `comp_by_maxima`, i.e. it visits points
in descending value order with ties broken by ascending argument. -/
theorem claim_C8 {s : FM A V} (h : Reachable s) :
    List.Pairwise (fun p q => comp_by_maxima p q = true) s.maxima := by
  have hI := reachable_inv h
  have hsorted : List.Pairwise mLE s.maxima := hI.2.1
  have hnd : s.maxima.Nodup := maxima_nodup hI
  exact (hsorted.and hnd).imp (fun hpq => comp_by_maxima_of_mLE_ne hpq.1 hpq.2)

theorem claim_C8_witness :
    Reachable (set_value (set_value (emptyFM : FM Int Int) 0 7) 2 4) ∧
    List.Pairwise (fun p q => comp_by_maxima p q = true)
      (set_value (set_value (emptyFM : FM Int Int) 0 7) 2 4).maxima :=
  ⟨Reachable.step_set 2 4 (Reachable.step_set 0 7 Reachable.empty),
   claim_C8 (Reachable.step_set 2 4 (Reachable.step_set 0 7 Reachable.empty))⟩

/-! ### `find` and `value_at` on sorted stores -/

theorem argSorted_arg_inj {f : List (A × V)} (hA : ArgSorted f) {i j : Nat}
    {p q : A × V} (hp : f[i]? = some p) (hq : f[j]? = some q) (h : p.1 = q.1) :
    i = j := by
  rcases lt_trichotomy i j with h1 | h1 | h1
  · have hlt := argSorted_rel hA h1 hp hq
    rw [h] at hlt
    exact absurd hlt (lt_irrefl _)
  · exact h1
  · have hlt := argSorted_rel hA h1 hq hp
    rw [h] at hlt
    exact absurd hlt (lt_irrefl _)

/-- On a strictly argument-sorted store, `find` returns exactly the position
of a stored point whose argument is the one sought. -/
theorem findArg_eq_of_mem (a : A) :
    ∀ (f : List (A × V)), ArgSorted f → ∀ (j : Nat) (p : A × V),
      f[j]? = some p → p.1 = a → findArg a f = some j := by
  intro f
  induction f with
  | nil => intro _ j p hj _; simp at hj
  | cons q t ih =>
    intro hA j p hj hpa
    have htail : ArgSorted t := (List.pairwise_cons.mp hA).2
    have hhead : ∀ x ∈ t, q.1 < x.1 := (List.pairwise_cons.mp hA).1
    by_cases h1 : q.1 < a
    · rcases j with _ | k
      · rw [List.getElem?_cons_zero, Option.some_inj] at hj
        rw [← hj] at hpa
        rw [hpa] at h1
        exact absurd h1 (lt_irrefl a)
      · rw [findArg, if_pos h1, ih htail k p (by simpa using hj) hpa]
        rfl
    · rcases j with _ | k
      · rw [List.getElem?_cons_zero, Option.some_inj] at hj
        by_cases h2 : a < q.1
        · rw [← hj] at hpa
          rw [hpa] at h2
          exact absurd h2 (lt_irrefl a)
        · rw [findArg, if_neg h1, if_neg h2]
      · have hpin : p ∈ t := List.mem_iff_getElem?.mpr ⟨k, by simpa using hj⟩
        have hrel := hhead p hpin
        rw [hpa] at hrel
        exact absurd (lt_of_le_of_lt (not_lt.mp h1) hrel) (lt_irrefl a)

theorem value_at_eq_of_find (s : FM A V) (a : A) (i : Nat)
    (h : findArg a s.function = some i) :
    value_at s a = (s.function[i]?).map (fun x => x.2) := by
  rw [value_at, h]

theorem value_at_eq_of_find_none (s : FM A V) (a : A)
    (h : findArg a s.function = none) : value_at s a = none := by
  rw [value_at, h]

/-- `value_at` returns a value exactly for the stored point with that
argument. -/
theorem value_at_eq_some_iff {s : FM A V} (hA : ArgSorted s.function) {a : A}
    {w : V} : value_at s a = some w ↔ (a, w) ∈ s.function := by
  constructor
  · intro h
    cases hf : findArg a s.function with
    | none =>
      rw [value_at_eq_of_find_none s a hf] at h
      exact absurd h (by simp)
    | some i =>
      obtain ⟨p, hp, hpa⟩ := findArg_some a s.function i hf
      rw [value_at_eq_of_find s a i hf, hp] at h
      have hw : p.2 = w := by simpa using h
      have hpw : p = (a, w) := Prod.ext hpa hw
      rw [← hpw]
      exact List.mem_iff_getElem?.mpr ⟨i, hp⟩
  · intro h
    obtain ⟨j, hj⟩ := List.mem_iff_getElem?.mp h
    rw [value_at_eq_of_find s a j (findArg_eq_of_mem a s.function hA j (a, w) hj rfl),
      hj]
    rfl

/-- `value_at` fails (throws `InvalidArg`) exactly when no stored point has
the sought argument. -/
theorem value_at_eq_none_iff {s : FM A V} (hA : ArgSorted s.function) {a : A} :
    value_at s a = none ↔ ∀ p ∈ s.function, p.1 ≠ a := by
  constructor
  · intro h p hp hpa
    obtain ⟨j, hj⟩ := List.mem_iff_getElem?.mp hp
    rw [value_at_eq_of_find s a j (findArg_eq_of_mem a s.function hA j p hj hpa),
      hj] at h
    exact absurd h (by simp)
  · intro h
    exact value_at_eq_of_find_none s a (findArg_none a s.function h)

/-- On a sorted store, the lower bound of a stored argument is its position. -/
theorem lowerBound_eq_of_mem {f : List (A × V)} (hA : ArgSorted f) {j : Nat}
    {p : A × V} {a : A} (hj : f[j]? = some p) (hpa : p.1 = a) :
    lowerBound a f = j := by
  have hjlen : j < f.length := (List.getElem?_eq_some.mp hj).1
  rcases lt_trichotomy (lowerBound a f) j with h | h | h
  · obtain ⟨q2, hq⟩ : ∃ q2, f[lowerBound a f]? = some q2 :=
      ⟨_, List.getElem?_eq_getElem (by omega)⟩
    have h1 := lowerBound_at_not_lt a f q2 hq
    have h2 := argSorted_rel hA h hq hj
    rw [hpa] at h2
    exact absurd h2 h1
  · exact h
  · have hlt := lowerBound_prefix_lt a f j p h hj
    rw [hpa] at hlt
    exact absurd hlt (lt_irrefl a)

/-! ### The point store across one `set_value` call -/

theorem no_arg_of_fresh {f : List (A × V)} (hA : ArgSorted f) {a : A}
    (hfresh : ∀ prev, f[lowerBound a f]? = some prev → a < prev.1) :
    ∀ p ∈ f, p.1 ≠ a := by
  intro p hp hpa
  obtain ⟨j, hj⟩ := List.mem_iff_getElem?.mp hp
  have hlb := lowerBound_eq_of_mem hA hj hpa
  have hlt := hfresh p (by rw [hlb]; exact hj)
  rw [hpa] at hlt
  exact lt_irrefl a hlt

theorem argSorted_set_value (s : FM A V) (a : A) (v : V) (hA : ArgSorted s.function) :
    ArgSorted (set_value s a v).function := by
  cases hp : s.function[lowerBound a s.function]? with
  | none =>
    rw [set_value_eq_fresh s a v (Or.inl hp)]
    apply argSorted_insertIdx_fresh hA a v
    intro prev hprev
    rw [hp] at hprev
    exact absurd hprev (by simp)
  | some prev =>
    by_cases hlt : a < prev.1
    · rw [set_value_eq_fresh s a v (Or.inr ⟨prev, hp, hlt⟩)]
      apply argSorted_insertIdx_fresh hA a v
      intro prev2 hprev2
      rw [hp] at hprev2
      obtain rfl : prev = prev2 := Option.some_inj.mp hprev2
      exact hlt
    · rw [set_value_eq_diff s a v prev hp hlt]
      show ArgSorted ((s.function.insertIdx (lowerBound a s.function) (a, v)).eraseIdx
        (lowerBound a s.function + 1))
      rw [eraseIdx_insertIdx_succ _ _ _ (List.getElem?_eq_some.mp hp).1]
      exact argSorted_set hA hp a v (le_antisymm (not_lt.mp hlt)
        (not_lt.mp (lowerBound_at_not_lt a s.function prev hp)))

theorem mem_set_value_iff (s : FM A V) (a : A) (v : V) (hA : ArgSorted s.function)
    (x : A × V) : x ∈ (set_value s a v).function ↔
      x = (a, v) ∨ (x ∈ s.function ∧ x.1 ≠ a) := by
  have hpos := lowerBound_le_length a s.function
  by_cases hfresh : ∀ prev, s.function[lowerBound a s.function]? = some prev → a < prev.1
  · have hcase : s.function[lowerBound a s.function]? = none ∨
        ∃ prev, s.function[lowerBound a s.function]? = some prev ∧ a < prev.1 := by
      cases hp : s.function[lowerBound a s.function]? with
      | none => exact Or.inl rfl
      | some prev => exact Or.inr ⟨prev, rfl, hfresh prev hp⟩
    rw [set_value_eq_fresh s a v hcase]
    show x ∈ s.function.insertIdx (lowerBound a s.function) (a, v) ↔ _
    rw [List.mem_insertIdx hpos]
    have hnoarg := no_arg_of_fresh hA hfresh
    constructor
    · rintro (h | h)
      · exact Or.inl h
      · exact Or.inr ⟨h, hnoarg x h⟩
    · rintro (h | h)
      · exact Or.inl h
      · exact Or.inr h.1
  · push_neg at hfresh
    obtain ⟨prev, hp, hge⟩ := hfresh
    have hposlt : lowerBound a s.function < s.function.length :=
      (List.getElem?_eq_some.mp hp).1
    have hpa : prev.1 = a := le_antisymm hge
      (not_lt.mp (lowerBound_at_not_lt a s.function prev hp))
    rw [set_value_eq_diff s a v prev hp (not_lt.mpr hge)]
    show x ∈ (s.function.insertIdx (lowerBound a s.function) (a, v)).eraseIdx
      (lowerBound a s.function + 1) ↔ _
    rw [eraseIdx_insertIdx_succ _ _ _ hposlt]
    constructor
    · intro h
      obtain ⟨j, hj⟩ := List.mem_iff_getElem?.mp h
      rw [List.getElem?_set] at hj
      by_cases hje : lowerBound a s.function = j
      · rw [if_pos hje, if_pos hposlt] at hj
        exact Or.inl (Option.some_inj.mp hj).symm
      · rw [if_neg hje] at hj
        refine Or.inr ⟨List.mem_iff_getElem?.mpr ⟨j, hj⟩, ?_⟩
        intro hxa
        exact hje (argSorted_arg_inj hA hp hj (hpa.trans hxa.symm))
    · rintro (h | ⟨hmem, hxa⟩)
      · subst h
        refine List.mem_iff_getElem?.mpr ⟨lowerBound a s.function, ?_⟩
        rw [List.getElem?_set, if_pos rfl, if_pos hposlt]
      · obtain ⟨j, hj⟩ := List.mem_iff_getElem?.mp hmem
        have hje : lowerBound a s.function ≠ j := by
          intro he
          rw [← he, hp] at hj
          apply hxa
          rw [← Option.some_inj.mp hj]
          exact hpa
        refine List.mem_iff_getElem?.mpr ⟨j, ?_⟩
        rw [List.getElem?_set, if_neg hje]
        exact hj

/-- C5: round trip.  On a valid store, a successful `set_value(a, v)`
followed by `value_at(a)` returns `v`. -/
theorem claim_C5 (s : FM A V) (a : A) (v : V) (hA : ArgSorted s.function) :
    value_at (set_value s a v) a = some v := by
  apply (value_at_eq_some_iff (argSorted_set_value s a v hA)).mpr
  rw [mem_set_value_iff s a v hA]
  exact Or.inl rfl

theorem claim_C5_witness :
    ArgSorted (set_value (emptyFM : FM Int Int) 0 5).function ∧
    value_at (set_value (set_value (emptyFM : FM Int Int) 0 5) 1 7) 1 = some 7 :=
  ⟨by unfold ArgSorted; decide,
   claim_C5 (set_value (emptyFM : FM Int Int) 0 5) 1 7 (by unfold ArgSorted; decide)⟩

/-- C7: `value_at` error contract.  On a valid store `value_at(a)` throws
(`none` in this embedding) exactly when no stored point has argument `a`;
being a pure observer it leaves the state unchanged by construction. -/
theorem claim_C7 (s : FM A V) (a : A) (hA : ArgSorted s.function) :
    value_at s a = none ↔ ∀ p ∈ s.function, p.1 ≠ a :=
  value_at_eq_none_iff hA

theorem claim_C7_witness :
    ArgSorted (set_value (emptyFM : FM Int Int) 0 5).function ∧
    (value_at (set_value (emptyFM : FM Int Int) 0 5) 1 = none ↔
      ∀ p ∈ (set_value (emptyFM : FM Int Int) 0 5).function, p.1 ≠ 1) :=
  ⟨by unfold ArgSorted; decide,
   claim_C7 (set_value (emptyFM : FM Int Int) 0 5) 1 (by unfold ArgSorted; decide)⟩

/-- C10: `set_value` size and frame effect.  A successful `set_value(a, v)`
adds one to the size when `a` was absent and keeps the size when `a` was
present, and the value seen at every other argument is unchanged. -/
theorem claim_C10 (s : FM A V) (a : A) (v : V) (hA : ArgSorted s.function) :
    (value_at s a = none → size (set_value s a v) = size s + 1) ∧
    (value_at s a ≠ none → size (set_value s a v) = size s) ∧
    (∀ b : A, b ≠ a → value_at (set_value s a v) b = value_at s b) := by
  have hpos := lowerBound_le_length a s.function
  have hA2 := argSorted_set_value s a v hA
  refine ⟨?_, ?_, ?_⟩
  · intro hnone
    have hnoarg := (value_at_eq_none_iff hA).mp hnone
    have hcase : s.function[lowerBound a s.function]? = none ∨
        ∃ prev, s.function[lowerBound a s.function]? = some prev ∧ a < prev.1 := by
      cases hp : s.function[lowerBound a s.function]? with
      | none => exact Or.inl rfl
      | some prev =>
        refine Or.inr ⟨prev, rfl, ?_⟩
        have h1 := lowerBound_at_not_lt a s.function prev hp
        have h2 := hnoarg prev (List.mem_iff_getElem?.mpr ⟨_, hp⟩)
        rcases lt_trichotomy a prev.1 with h | h | h
        · exact h
        · exact absurd h.symm h2
        · exact absurd h h1
    rw [set_value_eq_fresh s a v hcase]
    show (s.function.insertIdx (lowerBound a s.function) (a, v)).length
      = s.function.length + 1
    exact List.length_insertIdx _ _ hpos
  · intro hsome
    cases hv : value_at s a with
    | none => exact absurd hv hsome
    | some w =>
      have hmem := (value_at_eq_some_iff hA).mp hv
      obtain ⟨j, hj⟩ := List.mem_iff_getElem?.mp hmem
      have hlb : lowerBound a s.function = j := lowerBound_eq_of_mem hA hj rfl
      have hp : s.function[lowerBound a s.function]? = some (a, w) := by
        rw [hlb]
        exact hj
      rw [set_value_eq_diff s a v (a, w) hp (lt_irrefl a)]
      show ((s.function.insertIdx (lowerBound a s.function) (a, v)).eraseIdx
        (lowerBound a s.function + 1)).length = s.function.length
      rw [eraseIdx_insertIdx_succ _ _ _ (List.getElem?_eq_some.mp hp).1, List.length_set]
  · intro b hba
    cases hv : value_at s b with
    | some w =>
      apply (value_at_eq_some_iff hA2).mpr
      rw [mem_set_value_iff s a v hA]
      exact Or.inr ⟨(value_at_eq_some_iff hA).mp hv, hba⟩
    | none =>
      apply (value_at_eq_none_iff hA2).mpr
      intro p hp hpb
      rw [mem_set_value_iff s a v hA] at hp
      rcases hp with h | ⟨hmem, _⟩
      · subst h
        exact hba hpb.symm
      · exact (value_at_eq_none_iff hA).mp hv p hmem hpb

theorem claim_C10_witness :
    ArgSorted (set_value (emptyFM : FM Int Int) 0 5).function ∧
    ((value_at (set_value (emptyFM : FM Int Int) 0 5) 1 = none →
      size (set_value (set_value (emptyFM : FM Int Int) 0 5) 1 7) =
        size (set_value (emptyFM : FM Int Int) 0 5) + 1) ∧
     (value_at (set_value (emptyFM : FM Int Int) 0 5) 1 ≠ none →
      size (set_value (set_value (emptyFM : FM Int Int) 0 5) 1 7) =
        size (set_value (emptyFM : FM Int Int) 0 5)) ∧
     (∀ b : Int, b ≠ 1 →
      value_at (set_value (set_value (emptyFM : FM Int Int) 0 5) 1 7) b =
        value_at (set_value (emptyFM : FM Int Int) 0 5) b)) :=
  ⟨by unfold ArgSorted; decide,
   claim_C10 (set_value (emptyFM : FM Int Int) 0 5) 1 7 (by unfold ArgSorted; decide)⟩

/-- C6: erase effect.  After a successful `erase(a)`, `value_at(a)` throws;
the size drops by exactly one when `a` was present; erasing an absent
argument leaves the structure (point store and maxima index) unchanged. -/
theorem claim_C6 (s : FM A V) (a : A) (hA : ArgSorted s.function) :
    value_at (erase s a) a = none ∧
    (value_at s a ≠ none → size (erase s a) + 1 = size s) ∧
    (value_at s a = none → erase s a = s) := by
  cases hf : findArg a s.function with
  | none =>
    have hse : erase s a = s := erase_eq_of_none s a hf
    have hnone : value_at s a = none := value_at_eq_of_find_none s a hf
    refine ⟨?_, ?_, fun _ => hse⟩
    · rw [hse]
      exact hnone
    · intro hs
      exact absurd hnone hs
  | some i =>
    obtain ⟨p, hit, hpa⟩ := findArg_some a s.function i hf
    have hi : i < s.function.length := (List.getElem?_eq_some.mp hit).1
    have hnd := argSorted_nodup hA
    have hA2 : ArgSorted (s.function.eraseIdx i) :=
      List.Pairwise.sublist (List.eraseIdx_sublist s.function i) hA
    rw [erase_eq_of_some s a i p hf hit]
    refine ⟨?_, ?_, ?_⟩
    · apply (value_at_eq_none_iff hA2).mpr
      intro q hq hqa
      have hqf : q ∈ s.function := (List.eraseIdx_sublist s.function i).subset hq
      obtain ⟨j, hj⟩ := List.mem_iff_getElem?.mp hqf
      have hij : j = i := argSorted_arg_inj hA hj hit (hqa.trans hpa.symm)
      subst hij
      rw [hit] at hj
      obtain rfl : p = q := Option.some_inj.mp hj
      exact not_mem_eraseIdx_self hnd hit hq
    · intro _
      show (s.function.eraseIdx i).length + 1 = s.function.length
      rw [List.length_eraseIdx, if_pos hi]
      omega
    · intro hnone
      have hnoarg := (value_at_eq_none_iff hA).mp hnone
      exact absurd hpa (hnoarg p (List.mem_iff_getElem?.mpr ⟨i, hit⟩))

theorem claim_C6_witness :
    ArgSorted (set_value (emptyFM : FM Int Int) 0 5).function ∧
    (value_at (erase (set_value (emptyFM : FM Int Int) 0 5) 0) 0 = none ∧
     (value_at (set_value (emptyFM : FM Int Int) 0 5) 0 ≠ none →
      size (erase (set_value (emptyFM : FM Int Int) 0 5) 0) + 1 =
        size (set_value (emptyFM : FM Int Int) 0 5)) ∧
     (value_at (set_value (emptyFM : FM Int Int) 0 5) 0 = none →
      erase (set_value (emptyFM : FM Int Int) 0 5) 0 =
        set_value (emptyFM : FM Int Int) 0 5)) :=
  ⟨by unfold ArgSorted; decide,
   claim_C6 (set_value (emptyFM : FM Int Int) 0 5) 0 (by unfold ArgSorted; decide)⟩

/-! ### The no-omission predicate as a neighbour comparison -/

theorem vLt_false_iff (f : List (A × V)) (i j : Nat) (hi : i < f.length)
    (hj : j < f.length) : vLt f i j = false ↔
      ∀ p q, f[i]? = some p → f[j]? = some q → q.2 ≤ p.2 := by
  obtain ⟨p, hp⟩ : ∃ p, f[i]? = some p := ⟨_, List.getElem?_eq_getElem hi⟩
  obtain ⟨q, hq⟩ : ∃ q, f[j]? = some q := ⟨_, List.getElem?_eq_getElem hj⟩
  have hv : vLt f i j = decide (p.2 < q.2) := by
    rw [vLt, hp, hq]
  rw [hv]
  constructor
  · intro h p2 q2 hp2 hq2
    rw [hp] at hp2
    rw [hq] at hq2
    obtain rfl : p = p2 := Option.some_inj.mp hp2
    obtain rfl : q = q2 := Option.some_inj.mp hq2
    exact not_lt.mp (of_decide_eq_false h)
  · intro h
    exact decide_eq_false (not_lt.mpr (h p q hp hq))

theorem isLM_iff (f : List (A × V)) (i : Nat) (hi : i < f.length) :
    isLM f i = true ↔
      ((i = 0 ∨ vLt f i (i - 1) = false) ∧
       (i + 1 = f.length ∨ vLt f i (i + 1) = false)) := by
  rw [isLM, is_local_maximum, if_neg (show ¬ i = f.length by omega), lm_left, lm_right]
  by_cases h0 : i = 0
  · rw [if_pos h0]
    by_cases hL : i + 1 = f.length
    · rw [if_pos hL]
      constructor
      · intro _
        exact ⟨Or.inl h0, Or.inl hL⟩
      · intro _
        rfl
    · rw [if_neg hL, if_pos (show i + 1 ≠ f.length from hL)]
      simp only [Bool.true_and, Bool.not_eq_true']
      constructor
      · intro h
        exact ⟨Or.inl h0, Or.inr h⟩
      · rintro ⟨_, hR | hR⟩
        · exact absurd hR hL
        · exact hR
  · rw [if_neg h0, if_pos (show i - 1 ≠ f.length by omega)]
    by_cases hL : i + 1 = f.length
    · rw [if_pos hL]
      simp only [Bool.and_true, Bool.not_eq_true']
      constructor
      · intro h
        exact ⟨Or.inr h, Or.inl hL⟩
      · rintro ⟨hL2 | hL2, _⟩
        · exact absurd hL2 h0
        · exact hL2
    · rw [if_neg hL, if_pos (show i + 1 ≠ f.length from hL)]
      simp only [Bool.and_eq_true, Bool.not_eq_true']
      constructor
      · rintro ⟨h1, h2⟩
        exact ⟨Or.inr h1, Or.inr h2⟩
      · rintro ⟨hA2 | hA2, hB | hB⟩
        · exact absurd hA2 h0
        · exact absurd hA2 h0
        · exact absurd hB hL
        · exact ⟨hA2, hB⟩

/-- C4 (corrected): a point at position `i` is a local maximum iff its value
is not below the immediate predecessor (when `i` is not first) nor below the
immediate successor (when `i` is not last) — a non-strict comparison.  In a
plateau of three argument-adjacent points with equal values the middle one
is therefore always a maximum; the claim that all three are maxima is
refuted by the counterexample. -/
theorem claim_C4 (f : List (A × V)) (i : Nat) (hi : i < f.length) :
    (isLM f i = true ↔
      ((i = 0 ∨ ∀ p q, f[i]? = some p → f[i - 1]? = some q → q.2 ≤ p.2) ∧
       (i + 1 = f.length ∨ ∀ p q, f[i]? = some p → f[i + 1]? = some q → q.2 ≤ p.2))) ∧
    (∀ p q r, f[i]? = some p → f[i + 1]? = some q → f[i + 2]? = some r →
      p.2 = q.2 → q.2 = r.2 → isLM f (i + 1) = true) := by
  constructor
  · rw [isLM_iff f i hi]
    constructor
    · rintro ⟨hL, hR⟩
      constructor
      · rcases hL with h | h
        · exact Or.inl h
        · by_cases h0 : i = 0
          · exact Or.inl h0
          · exact Or.inr ((vLt_false_iff f i (i - 1) hi (by omega)).mp h)
      · rcases hR with h | h
        · exact Or.inl h
        · by_cases hLen : i + 1 = f.length
          · exact Or.inl hLen
          · exact Or.inr ((vLt_false_iff f i (i + 1) hi (by omega)).mp h)
    · rintro ⟨hL, hR⟩
      constructor
      · rcases hL with h | h
        · exact Or.inl h
        · by_cases h0 : i = 0
          · exact Or.inl h0
          · exact Or.inr ((vLt_false_iff f i (i - 1) hi (by omega)).mpr h)
      · rcases hR with h | h
        · exact Or.inl h
        · by_cases hLen : i + 1 = f.length
          · exact Or.inl hLen
          · exact Or.inr ((vLt_false_iff f i (i + 1) hi (by omega)).mpr h)
  · intro p q r hp hq hr hpq hqr
    have hi2 : i + 2 < f.length := (List.getElem?_eq_some.mp hr).1
    rw [isLM_iff f (i + 1) (by omega)]
    constructor
    · right
      rw [show i + 1 - 1 = i by omega]
      apply (vLt_false_iff f (i + 1) i (by omega) hi).mpr
      intro p2 q2 hp2 hq2
      rw [hq] at hp2
      rw [hp] at hq2
      obtain rfl : q = p2 := Option.some_inj.mp hp2
      obtain rfl : p = q2 := Option.some_inj.mp hq2
      exact le_of_eq hpq
    · right
      apply (vLt_false_iff f (i + 1) (i + 2) (by omega) hi2).mpr
      intro p2 q2 hp2 hq2
      rw [hq] at hp2
      rw [hr] at hq2
      obtain rfl : q = p2 := Option.some_inj.mp hp2
      obtain rfl : r = q2 := Option.some_inj.mp hq2
      exact le_of_eq hqr.symm

theorem claim_C4_witness :
    (0 : Nat) < ([((0 : Int), (0 : Int))] : List (Int × Int)).length ∧
    ((isLM ([((0 : Int), (0 : Int))] : List (Int × Int)) 0 = true ↔
      ((0 = 0 ∨ ∀ p q : Int × Int,
          ([((0 : Int), (0 : Int))] : List (Int × Int))[0]? = some p →
          ([((0 : Int), (0 : Int))] : List (Int × Int))[0 - 1]? = some q →
          q.2 ≤ p.2) ∧
       (0 + 1 = ([((0 : Int), (0 : Int))] : List (Int × Int)).length ∨
        ∀ p q : Int × Int,
          ([((0 : Int), (0 : Int))] : List (Int × Int))[0]? = some p →
          ([((0 : Int), (0 : Int))] : List (Int × Int))[0 + 1]? = some q →
          q.2 ≤ p.2))) ∧
    (∀ p q r : Int × Int,
      ([((0 : Int), (0 : Int))] : List (Int × Int))[0]? = some p →
      ([((0 : Int), (0 : Int))] : List (Int × Int))[0 + 1]? = some q →
      ([((0 : Int), (0 : Int))] : List (Int × Int))[0 + 2]? = some r →
      p.2 = q.2 → q.2 = r.2 →
      isLM ([((0 : Int), (0 : Int))] : List (Int × Int)) (0 + 1) = true)) :=
  ⟨by decide, claim_C4 ([((0 : Int), (0 : Int))] : List (Int × Int)) 0 (by decide)⟩

theorem claim_C4_counterexample :
    Reachable (set_value (set_value (set_value (set_value (set_value
      (emptyFM : FM Int Int) 0 9) 1 5) 2 5) 3 5) 4 9) ∧
    (set_value (set_value (set_value (set_value (set_value
      (emptyFM : FM Int Int) 0 9) 1 5) 2 5) 3 5) 4 9).function =
      [(0, 9), (1, 5), (2, 5), (3, 5), (4, 9)] ∧
    isLM ([((0 : Int), (9 : Int)), (1, 5), (2, 5), (3, 5), (4, 9)] :
      List (Int × Int)) 2 = true ∧
    isLM ([((0 : Int), (9 : Int)), (1, 5), (2, 5), (3, 5), (4, 9)] :
      List (Int × Int)) 1 = false ∧
    (1, 5) ∉ (set_value (set_value (set_value (set_value (set_value
      (emptyFM : FM Int Int) 0 9) 1 5) 2 5) 3 5) 4 9).maxima :=
  ⟨Reachable.step_set 4 9 (Reachable.step_set 3 5 (Reachable.step_set 2 5
      (Reachable.step_set 1 5 (Reachable.step_set 0 9 Reachable.empty)))),
   by decide, by decide, by decide, by decide⟩

/-! ### C3: the omission-aware predicate matches its specification -/

theorem reverse_range_succ (k : Nat) :
    (List.range (k + 1)).reverse = k :: (List.range k).reverse := by
  rw [List.range_succ, List.reverse_append]
  rfl

theorem effPred_eq (i om : Nat) :
    effPred i om = if i = 0 then none
      else if i - 1 ≠ om then some (i - 1)
      else if i - 1 = 0 then none
      else some (i - 2) := by
  rcases i with _ | k
  · rfl
  · rw [effPred, reverse_range_succ]
    by_cases h1 : k ≠ om
    · rw [@List.find?_cons_of_pos _ (fun j => decide (j ≠ om)) k
          ((List.range k).reverse) (decide_eq_true h1),
        if_neg (by omega : ¬ k + 1 = 0), if_pos (show k + 1 - 1 ≠ om from h1)]
      rfl
    · have h1' : k = om := not_not.mp h1
      subst h1'
      rw [@List.find?_cons_of_neg _ (fun j => decide (j ≠ k)) k
          ((List.range k).reverse) (by simp)]
      rcases k with _ | m
      · rw [if_neg (by omega : ¬ 0 + 1 = 0), if_neg (show ¬ 0 + 1 - 1 ≠ 0 by simp),
          if_pos (show 0 + 1 - 1 = 0 from rfl)]
        rfl
      · rw [reverse_range_succ,
          @List.find?_cons_of_pos _ (fun j => decide (j ≠ m + 1)) m
            ((List.range m).reverse) (decide_eq_true (by omega : m ≠ m + 1)),
          if_neg (by omega : ¬ m + 1 + 1 = 0),
          if_neg (show ¬ m + 1 + 1 - 1 ≠ m + 1 by simp),
          if_neg (by omega : ¬ m + 1 + 1 - 1 = 0)]
        rfl

theorem effSucc_eq (len i om : Nat) :
    effSucc len i om = if len ≤ i + 1 then none
      else if i + 1 ≠ om then some (i + 1)
      else if len ≤ i + 2 then none
      else some (i + 2) := by
  rw [effSucc]
  by_cases h1 : len ≤ i + 1
  · rw [if_pos h1, show len - (i + 1) = 0 by omega]
    rfl
  · rw [if_neg h1]
    obtain ⟨m, hm⟩ : ∃ m, len - (i + 1) = m + 1 := ⟨len - (i + 2), by omega⟩
    rw [hm, List.range'_succ]
    by_cases h2 : i + 1 ≠ om
    · rw [@List.find?_cons_of_pos _ (fun j => decide (j ≠ om)) (i + 1)
          (List.range' (i + 1 + 1) m) (decide_eq_true h2), if_pos h2]
    · have h2' : i + 1 = om := not_not.mp h2
      rw [@List.find?_cons_of_neg _ (fun j => decide (j ≠ om)) (i + 1)
          (List.range' (i + 1 + 1) m) (by rw [← h2']; simp), if_neg h2]
      by_cases h3 : len ≤ i + 2
      · rw [if_pos h3, show m = 0 by omega]
        rfl
      · obtain ⟨m2, hm2⟩ : ∃ m2, m = m2 + 1 := ⟨m - 1, by omega⟩
        rw [if_neg h3, hm2, List.range'_succ,
          @List.find?_cons_of_pos _ (fun j => decide (j ≠ om)) (i + 1 + 1)
            (List.range' (i + 1 + 1 + 1) m2)
            (decide_eq_true (by omega : i + 1 + 1 ≠ om))]

/-- C3: the omission-aware predicate.  `is_local_maximum(p, omit)` compares
against the nearest non-omitted neighbour on each side (skipping one
position further when the immediate neighbour is the omitted one), a side
with no such neighbour imposes no constraint, and the predicate is false
when `p` is the omitted position — exactly the specification-side
predicate. -/
theorem claim_C3 (f : List (A × V)) (i om : Nat) (hi : i < f.length) :
    is_local_maximum f i om = is_local_maximum_spec f i om := by
  rw [is_local_maximum, is_local_maximum_spec, effPred_eq, effSucc_eq]
  by_cases h0 : i = om
  · rw [if_pos h0, if_pos h0]
  · rw [if_neg h0, if_neg h0]
    congr 1
    · rw [lm_left]
      by_cases hi0 : i = 0
      · rw [if_pos hi0, if_pos hi0]
      · rw [if_neg hi0, if_neg hi0]
        by_cases h1 : i - 1 ≠ om
        · rw [if_pos h1, if_pos h1]
        · rw [if_neg h1, if_neg h1]
          by_cases h2 : i - 1 = 0
          · rw [if_pos h2, if_pos h2]
          · rw [if_neg h2, if_neg h2]
    · rw [lm_right]
      by_cases hL : i + 1 = f.length
      · rw [if_pos hL, if_pos (by omega : f.length ≤ i + 1)]
      · rw [if_neg hL, if_neg (by omega : ¬ f.length ≤ i + 1)]
        by_cases hR : i + 1 ≠ om
        · rw [if_pos hR, if_pos hR]
        · rw [if_neg hR, if_neg hR]
          by_cases hE : i + 2 = f.length
          · rw [if_pos hE, if_pos (by omega : f.length ≤ i + 2)]
          · rw [if_neg hE, if_neg (by omega : ¬ f.length ≤ i + 2)]

theorem claim_C3_witness :
    (1 : Nat) < ([((0 : Int), (1 : Int)), (1, 2), (2, 3)] : List (Int × Int)).length ∧
    is_local_maximum ([((0 : Int), (1 : Int)), (1, 2), (2, 3)] : List (Int × Int)) 1 2 =
      is_local_maximum_spec ([((0 : Int), (1 : Int)), (1, 2), (2, 3)] :
        List (Int × Int)) 1 2 :=
  ⟨by decide, claim_C3 ([((0 : Int), (1 : Int)), (1, 2), (2, 3)] : List (Int × Int))
    1 2 (by decide)⟩

/-! ### C2: strong exception safety of the mutating operations -/

theorem mxInsertF_ok (p : A × V) : ∀ (ms : List (A × V)) (fuel n : Nat)
    (r : List (A × V)), mxInsertF p ms fuel = Res.ok n r → r = mxInsert p ms := by
  intro ms
  induction ms with
  | nil =>
    intro fuel n r h
    simp only [mxInsertF] at h
    split at h
    · injection h
    · injection h with h1 h2
      rw [← h2]
      rfl
  | cons q t ih =>
    intro fuel n r h
    simp only [mxInsertF] at h
    split at h
    · injection h
    · split at h
      · rename_i hmle
        split at h
        · injection h
        · injection h with h1 h2
          rw [← h2, mxInsert, List.orderedInsert, if_pos hmle]
      · rename_i hmle
        split at h
        · injection h
        · rename_i n2 r2 heq
          injection h with h1 h2
          rw [← h2, ih _ _ _ heq, mxInsert, mxInsert, List.orderedInsert, if_neg hmle]

theorem stoppedF_thrown {f ms : List (A × V)} {j om : Nat} {rb : List (A × V)}
    {fuel : Nat} {pay : List (A × V) × List (A × V)}
    (h : stopped_being_maximumF f ms j om rb fuel = Res.thrown pay) :
    pay = (ms, rb) := by
  rw [stopped_being_maximumF] at h
  split at h
  · injection h
  · split at h
    · injection h with h1
      exact h1.symm
    · split at h
      · injection h with h1
        exact h1.symm
      · split at h
        · split at h
          · injection h
          · split at h
            · injection h with h1
              exact h1.symm
            · injection h
        · injection h

theorem stoppedF_ok {f ms : List (A × V)} {j om : Nat} {rb : List (A × V)}
    {fuel n : Nat} {res : List (A × V) × Option (A × V) × List (A × V)}
    (h : stopped_being_maximumF f ms j om rb fuel = Res.ok n res) :
    (List.Sorted mLE ms → List.Sorted mLE res.1) ∧
    ∀ q, res.1.count q + rb.count q = ms.count q + res.2.2.count q := by
  rw [stopped_being_maximumF] at h
  split at h
  · injection h with h1 h2
    rw [← h2]
    exact ⟨fun hs => hs, fun q => rfl⟩
  · rename_i p hj
    split at h
    · injection h
    · split at h
      · injection h
      · split at h
        · split at h
          · injection h with h1 h2
            rw [← h2]
            exact ⟨fun hs => hs, fun q => rfl⟩
          · split at h
            · injection h
            · rename_i n3 ms2 hins
              injection h with h1 h2
              rw [← h2]
              have hms2 := mxInsertF_ok p ms _ _ _ hins
              subst hms2
              refine ⟨fun hs => sorted_mxInsert p hs, ?_⟩
              intro q
              show (mxInsert p ms).count q + rb.count q
                = ms.count q + (rb ++ [p]).count q
              have hsing : ([p] : List (A × V)).count q = if p = q then 1 else 0 := by
                have hc := count_mxInsert p q []
                simpa using hc
              rw [count_mxInsert, List.count_append, hsing]
              by_cases hpq : p = q
              · simp only [if_pos hpq]
                omega
              · simp only [if_neg hpq]
                omega
        · injection h with h1 h2
          rw [← h2]
          exact ⟨fun hs => hs, fun q => rfl⟩

theorem convertPhaseF_thrown {g : List (A × V)} {om : Nat}
    {ms rb : List (A × V)} {J : Option Nat} {fuel : Nat}
    {pay : List (A × V) × List (A × V)}
    (h : convertPhaseF g om ms rb J fuel = Res.thrown pay) : pay = (ms, rb) := by
  cases J with
  | none =>
    rw [convertPhaseF] at h
    injection h
  | some j =>
    rw [convertPhaseF] at h
    exact stoppedF_thrown h

theorem convertPhaseF_ok {g : List (A × V)} {om : Nat}
    {ms rb : List (A × V)} {J : Option Nat} {fuel n : Nat}
    {res : List (A × V) × Option (A × V) × List (A × V)}
    (h : convertPhaseF g om ms rb J fuel = Res.ok n res) :
    (List.Sorted mLE ms → List.Sorted mLE res.1) ∧
    ∀ q, res.1.count q + rb.count q = ms.count q + res.2.2.count q := by
  cases J with
  | none =>
    rw [convertPhaseF] at h
    injection h with h1 h2
    rw [← h2]
    exact ⟨fun hs => hs, fun q => rfl⟩
  | some j =>
    rw [convertPhaseF] at h
    exact stoppedF_ok h

/-- On a throw inside `update_maxima`, the carried maxima listing is sorted
and exceeds the original exactly by the rollback entries. -/
theorem update_maximaF_thrown {g ms : List (A × V)} {i om fuel : Nat}
    {pay : List (A × V) × List (A × V)} (hS : List.Sorted mLE ms)
    (h : update_maximaF g ms i om fuel = Res.thrown pay) :
    List.Sorted mLE pay.1 ∧ ∀ q, pay.1.count q = ms.count q + pay.2.count q := by
  rw [update_maximaF] at h
  split at h
  · injection h with h1
    rw [← h1]
    exact ⟨hS, fun q => by simp⟩
  · split at h
    · rename_i pay2 hins
      injection h with h1
      subst h1
      have hpay : pay2 = (ms, []) := by
        split at hins
        · split at hins
          · split at hins
            · injection hins with h2
              exact h2.symm
            · injection hins
          · injection hins
        · injection hins
      rw [hpay]
      exact ⟨hS, fun q => by simp⟩
    · rename_i n2 msrb hins
      have hR : List.Sorted mLE msrb.1 ∧
          ∀ q, msrb.1.count q = ms.count q + msrb.2.count q := by
        split at hins
        · split at hins
          · rename_i p hp
            split at hins
            · injection hins
            · rename_i n3 ms2 hmx
              injection hins with h1 h2
              rw [← h2]
              have hms2 := mxInsertF_ok _ _ _ _ _ hmx
              subst hms2
              refine ⟨sorted_mxInsert _ hS, ?_⟩
              intro q
              show (mxInsert p ms).count q = ms.count q + ([p] : List (A × V)).count q
              have hsing : ([p] : List (A × V)).count q = if p = q then 1 else 0 := by
                have hc := count_mxInsert p q []
                simpa using hc
              rw [count_mxInsert, hsing]
          · injection hins with h1 h2
            rw [← h2]
            exact ⟨hS, fun q => by simp⟩
        · injection hins with h1 h2
          rw [← h2]
          exact ⟨hS, fun q => by simp⟩
      split at h
      · rename_i pay2 hcl
        injection h with h1
        subst h1
        rw [convertPhaseF_thrown hcl]
        exact ⟨hR.1, hR.2⟩
      · rename_i n3 mlr hcl
        have hRL := convertPhaseF_ok hcl
        have hR2 : List.Sorted mLE mlr.1 ∧
            ∀ q, mlr.1.count q = ms.count q + mlr.2.2.count q := by
          refine ⟨hRL.1 hR.1, ?_⟩
          intro q
          have e1 := hR.2 q
          have e2 := hRL.2 q
          omega
        split at h
        · rename_i pay2 hcr
          injection h with h1
          subst h1
          rw [convertPhaseF_thrown hcr]
          exact hR2
        · injection h

/-- Erasing the rollback entries restores the original sorted listing. -/
theorem foldl_erase_restore {ms0 : List (A × V)} (hS0 : List.Sorted mLE ms0) :
    ∀ (rb ms : List (A × V)), List.Sorted mLE ms →
      (∀ q, ms.count q = ms0.count q + rb.count q) →
      rb.foldl (fun m x => m.erase x) ms = ms0 := by
  intro rb
  induction rb with
  | nil =>
    intro ms hS hcnt
    have hperm : ms.Perm ms0 := perm_of_count_eq (fun q => by
      have := hcnt q
      simpa using this)
    exact List.eq_of_perm_of_sorted hperm hS hS0
  | cons p t ih =>
    intro ms hS hcnt
    show t.foldl (fun m x => m.erase x) (ms.erase p) = ms0
    apply ih (ms.erase p) (sorted_erase_pt p hS)
    intro q
    rw [count_erase_pt]
    have h1 := hcnt q
    rw [List.count_cons] at h1
    simp only [beq_iff_eq] at h1
    by_cases hpq : p = q
    · subst hpq
      simp only [if_pos rfl] at h1 ⊢
      omega
    · rw [if_neg hpq]
      rw [if_neg hpq] at h1
      omega

theorem eraseF_eq_throw_find {s : FM A V} {a : A} {fuel : Nat}
    (h : findArgF a s.function fuel = Res.thrown ()) :
    eraseF s a fuel = (true, s) := by
  rw [eraseF, h]

theorem eraseF_eq_absent {s : FM A V} {a : A} {fuel n1 : Nat}
    (h : findArgF a s.function fuel = Res.ok n1 none) :
    eraseF s a fuel = (false, s) := by
  rw [eraseF, h]

theorem eraseF_eq_noit {s : FM A V} {a : A} {fuel n1 i : Nat}
    (hf : findArgF a s.function fuel = Res.ok n1 (some i))
    (hit : s.function[i]? = none) :
    eraseF s a fuel = (false, s) := by
  rw [eraseF, hf]
  simp only [hit]

theorem eraseF_eq_mem_throw {s : FM A V} {a : A} {fuel n1 i : Nat} {p : A × V}
    (hf : findArgF a s.function fuel = Res.ok n1 (some i))
    (hit : s.function[i]? = some p)
    (hm : memF p s.maxima n1 = Res.thrown ()) :
    eraseF s a fuel = (true, s) := by
  rw [eraseF, hf]
  simp only [hit, hm]

theorem eraseF_eq_update_throw {s : FM A V} {a : A} {fuel n1 n2 i : Nat}
    {p : A × V} {found : Bool} {pay : List (A × V) × List (A × V)}
    (hf : findArgF a s.function fuel = Res.ok n1 (some i))
    (hit : s.function[i]? = some p)
    (hm : memF p s.maxima n1 = Res.ok n2 found)
    (hu : update_maximaF s.function s.maxima i i n2 = Res.thrown pay) :
    eraseF s a fuel =
      (true, FM.mk s.function (pay.2.foldl (fun m x => m.erase x) pay.1)) := by
  rw [eraseF, hf]
  simp only [hit, hm, hu]

theorem eraseF_eq_ok {s : FM A V} {a : A} {fuel n1 n2 n3 i : Nat}
    {p : A × V} {found : Bool} {msr : List (A × V) × List (A × V)}
    (hf : findArgF a s.function fuel = Res.ok n1 (some i))
    (hit : s.function[i]? = some p)
    (hm : memF p s.maxima n1 = Res.ok n2 found)
    (hu : update_maximaF s.function s.maxima i i n2 = Res.ok n3 msr) :
    eraseF s a fuel = (false, FM.mk (s.function.eraseIdx i)
      (if found then msr.1.erase p else msr.1)) := by
  rw [eraseF, hf]
  simp only [hit, hm, hu]

/-- A throwing `erase` leaves the structure exactly as before the call. -/
theorem eraseF_err (s : FM A V) (a : A) (fuel : Nat)
    (hS : List.Sorted mLE s.maxima) (h : (eraseF s a fuel).1 = true) :
    (eraseF s a fuel).2 = s := by
  cases hf : findArgF a s.function fuel with
  | thrown u =>
    cases u
    rw [eraseF_eq_throw_find hf]
  | ok n1 r =>
    cases r with
    | none =>
      rw [eraseF_eq_absent hf] at h
      exact absurd h (by simp)
    | some i =>
      cases hit : s.function[i]? with
      | none =>
        rw [eraseF_eq_noit hf hit] at h
        exact absurd h (by simp)
      | some p =>
        cases hm : memF p s.maxima n1 with
        | thrown u =>
          cases u
          rw [eraseF_eq_mem_throw hf hit hm]
        | ok n2 found =>
          cases hu : update_maximaF s.function s.maxima i i n2 with
          | thrown pay =>
            rw [eraseF_eq_update_throw hf hit hm hu]
            obtain ⟨hpS, hpC⟩ := update_maximaF_thrown hS hu
            show FM.mk s.function (pay.2.foldl (fun m x => m.erase x) pay.1) = s
            rw [foldl_erase_restore hS pay.2 pay.1 hpS hpC]
          | ok n3 msr =>
            rw [eraseF_eq_ok hf hit hm hu] at h
            exact absurd h (by simp)

theorem set_valueF_eq_tick1 {s : FM A V} {a : A} {v : V} {fuel : Nat}
    (h : tick fuel = Res.thrown ()) : set_valueF s a v fuel = (true, s) := by
  rw [set_valueF, h]

theorem set_valueF_eq_lb_throw {s : FM A V} {a : A} {v : V} {fuel n0 : Nat}
    (h0 : tick fuel = Res.ok n0 ())
    (hlb : lowerBoundF a s.function n0 = Res.thrown ()) :
    set_valueF s a v fuel = (true, s) := by
  rw [set_valueF, h0]
  simp only [hlb]

theorem set_valueF_eq_prev_throw {s : FM A V} {a : A} {v : V}
    {fuel n0 n1 pos : Nat} (h0 : tick fuel = Res.ok n0 ())
    (hlb : lowerBoundF a s.function n0 = Res.ok n1 pos)
    (hpf : prevFindF (s.function[pos]?) s.maxima n1 = Res.thrown ()) :
    set_valueF s a v fuel = (true, s) := by
  rw [set_valueF, h0]
  simp only [hlb, hpf]

theorem set_valueF_eq_tick2_throw {s : FM A V} {a : A} {v : V}
    {fuel n0 n1 n2 pos : Nat} {prevFound : Bool} (h0 : tick fuel = Res.ok n0 ())
    (hlb : lowerBoundF a s.function n0 = Res.ok n1 pos)
    (hpf : prevFindF (s.function[pos]?) s.maxima n1 = Res.ok n2 prevFound)
    (hv2 : tick n2 = Res.thrown ()) :
    set_valueF s a v fuel = (true, s) := by
  rw [set_valueF, h0]
  simp only [hlb, hpf, hv2]

theorem set_valueF_eq_diff_throw {s : FM A V} {a : A} {v : V}
    {fuel n0 n1 n2 n3 pos : Nat} {prevFound : Bool}
    (h0 : tick fuel = Res.ok n0 ())
    (hlb : lowerBoundF a s.function n0 = Res.ok n1 pos)
    (hpf : prevFindF (s.function[pos]?) s.maxima n1 = Res.ok n2 prevFound)
    (hv2 : tick n2 = Res.ok n3 ())
    (hd : diffF (s.function[pos]?) a n3 = Res.thrown ()) :
    set_valueF s a v fuel = (true, s) := by
  rw [set_valueF, h0]
  simp only [hlb, hpf, hv2, hd]

theorem set_valueF_eq_update_throw {s : FM A V} {a : A} {v : V}
    {fuel n0 n1 n2 n3 n4 pos : Nat} {prevFound diff : Bool}
    {pay : List (A × V) × List (A × V)}
    (h0 : tick fuel = Res.ok n0 ())
    (hlb : lowerBoundF a s.function n0 = Res.ok n1 pos)
    (hpf : prevFindF (s.function[pos]?) s.maxima n1 = Res.ok n2 prevFound)
    (hv2 : tick n2 = Res.ok n3 ())
    (hd : diffF (s.function[pos]?) a n3 = Res.ok n4 diff)
    (hu : update_maximaF (s.function.insertIdx pos (a, v)) s.maxima pos
      (if diff then pos + 1 else (s.function.insertIdx pos (a, v)).length) n4
      = Res.thrown pay) :
    set_valueF s a v fuel =
      (true, FM.mk s.function (pay.2.foldl (fun m x => m.erase x) pay.1)) := by
  rw [set_valueF, h0]
  simp only [hlb, hpf, hv2, hd, hu]

theorem set_valueF_ok_fst {s : FM A V} {a : A} {v : V}
    {fuel n0 n1 n2 n3 n4 n5 pos : Nat} {prevFound diff : Bool}
    {msr : List (A × V) × List (A × V)}
    (h0 : tick fuel = Res.ok n0 ())
    (hlb : lowerBoundF a s.function n0 = Res.ok n1 pos)
    (hpf : prevFindF (s.function[pos]?) s.maxima n1 = Res.ok n2 prevFound)
    (hv2 : tick n2 = Res.ok n3 ())
    (hd : diffF (s.function[pos]?) a n3 = Res.ok n4 diff)
    (hu : update_maximaF (s.function.insertIdx pos (a, v)) s.maxima pos
      (if diff then pos + 1 else (s.function.insertIdx pos (a, v)).length) n4
      = Res.ok n5 msr) :
    (set_valueF s a v fuel).1 = false := by
  rw [set_valueF, h0]
  simp only [hlb, hpf, hv2, hd, hu]
  split_ifs <;> first | rfl | (cases s.function[pos]? <;> rfl)

/-- A throwing `set_value` leaves the structure exactly as before the
call. -/
theorem set_valueF_err (s : FM A V) (a : A) (v : V) (fuel : Nat)
    (hS : List.Sorted mLE s.maxima) (h : (set_valueF s a v fuel).1 = true) :
    (set_valueF s a v fuel).2 = s := by
  cases h0 : tick fuel with
  | thrown u =>
    cases u
    rw [set_valueF_eq_tick1 h0]
  | ok n0 u =>
    cases u
    cases hlb : lowerBoundF a s.function n0 with
    | thrown u2 =>
      cases u2
      rw [set_valueF_eq_lb_throw h0 hlb]
    | ok n1 pos =>
      cases hpf : prevFindF (s.function[pos]?) s.maxima n1 with
      | thrown u2 =>
        cases u2
        rw [set_valueF_eq_prev_throw h0 hlb hpf]
      | ok n2 prevFound =>
        cases hv2 : tick n2 with
        | thrown u2 =>
          cases u2
          rw [set_valueF_eq_tick2_throw h0 hlb hpf hv2]
        | ok n3 u3 =>
          cases u3
          cases hd : diffF (s.function[pos]?) a n3 with
          | thrown u2 =>
            cases u2
            rw [set_valueF_eq_diff_throw h0 hlb hpf hv2 hd]
          | ok n4 diff =>
            cases hu : update_maximaF (s.function.insertIdx pos (a, v)) s.maxima
                pos (if diff then pos + 1
                  else (s.function.insertIdx pos (a, v)).length) n4 with
            | thrown pay =>
              rw [set_valueF_eq_update_throw h0 hlb hpf hv2 hd hu]
              obtain ⟨hpS, hpC⟩ := update_maximaF_thrown hS hu
              show FM.mk s.function (pay.2.foldl (fun m x => m.erase x) pay.1) = s
              rw [foldl_erase_restore hS pay.2 pay.1 hpS hpC]
            | ok n5 msr =>
              rw [set_valueF_ok_fst h0 hlb hpf hv2 hd hu] at h
              exact absurd h (by simp)

/-- C2: strong exception safety of the mutating operations.  In the
fuel-instrumented model, where any comparison or allocation may throw (the
fuel running out at exactly that call), a `set_value` or `erase` call that
throws leaves the externally observable state equal to the state
immediately before the call, for every state whose maxima index is sorted
and every fuel budget. -/
theorem claim_C2 (s : FM A V) (a : A) (v : V) (fuel : Nat)
    (hS : List.Sorted mLE s.maxima) :
    ((eraseF s a fuel).1 = true → (eraseF s a fuel).2 = s) ∧
    ((set_valueF s a v fuel).1 = true → (set_valueF s a v fuel).2 = s) :=
  ⟨eraseF_err s a fuel hS, set_valueF_err s a v fuel hS⟩

theorem claim_C2_witness :
    List.Sorted mLE (set_value (emptyFM : FM Int Int) 0 5).maxima ∧
    ((eraseF (set_value (emptyFM : FM Int Int) 0 5) 0 0).1 = true →
      (eraseF (set_value (emptyFM : FM Int Int) 0 5) 0 0).2 =
        set_value (emptyFM : FM Int Int) 0 5) ∧
    ((set_valueF (set_value (emptyFM : FM Int Int) 0 5) 0 7 0).1 = true →
      (set_valueF (set_value (emptyFM : FM Int Int) 0 5) 0 7 0).2 =
        set_value (emptyFM : FM Int Int) 0 5) :=
  ⟨by decide,
   (claim_C2 (set_value (emptyFM : FM Int Int) 0 5) 0 7 0 (by decide)).1,
   (claim_C2 (set_value (emptyFM : FM Int Int) 0 5) 0 7 0 (by decide)).2⟩

/-! ### C9: copy independence and atomic assignment -/

theorem copyListF_ok : ∀ (l : List (A × V)) (fuel n : Nat) (r : List (A × V)),
    copyListF l fuel = Res.ok n r → r = l := by
  intro l
  induction l with
  | nil =>
    intro fuel n r h
    simp only [copyListF] at h
    injection h with h1 h2
    exact h2.symm
  | cons p t ih =>
    intro fuel n r h
    simp only [copyListF] at h
    split at h
    · injection h
    · split at h
      · injection h
      · rename_i n2 r2 heq
        injection h with h1 h2
        rw [← h2, ih _ _ _ heq]

/-- C9: copy independence and atomic assignment.  `operator=` first builds
complete copies of both containers and only then swaps them into the
target: when any allocation during the copies throws, the target is
unchanged; when the assignment succeeds the target's observable state
equals the source's.  The copies are separate values, so later mutations of
either object cannot affect the other. -/
theorem claim_C9 (dst src : FM A V) (fuel : Nat) :
    ((assignF dst src fuel).1 = true → (assignF dst src fuel).2 = dst) ∧
    ((assignF dst src fuel).1 = false → (assignF dst src fuel).2 = src) := by
  cases h1 : copyListF src.function fuel with
  | thrown u =>
    cases u
    have he : assignF dst src fuel = (true, dst) := by
      rw [assignF, h1]
    rw [he]
    exact ⟨fun _ => rfl, fun hc => absurd hc (by simp)⟩
  | ok n1 tf =>
    cases h2 : copyListF src.maxima n1 with
    | thrown u =>
      cases u
      have he : assignF dst src fuel = (true, dst) := by
        rw [assignF, h1]
        simp only [h2]
      rw [he]
      exact ⟨fun _ => rfl, fun hc => absurd hc (by simp)⟩
    | ok n2 tm =>
      have he : assignF dst src fuel = (false, FM.mk tf tm) := by
        rw [assignF, h1]
        simp only [h2]
      rw [he]
      refine ⟨fun hc => absurd hc (by simp), fun _ => ?_⟩
      show FM.mk tf tm = src
      rw [copyListF_ok _ _ _ _ h1, copyListF_ok _ _ _ _ h2]

theorem claim_C9_witness :
    (assignF (emptyFM : FM Int Int) (set_value (emptyFM : FM Int Int) 0 5) 0).1
      = true ∧
    (assignF (emptyFM : FM Int Int) (set_value (emptyFM : FM Int Int) 0 5) 0).2
      = emptyFM ∧
    (assignF (emptyFM : FM Int Int) (set_value (emptyFM : FM Int Int) 0 5) 9).1
      = false ∧
    (assignF (emptyFM : FM Int Int) (set_value (emptyFM : FM Int Int) 0 5) 9).2
      = set_value (emptyFM : FM Int Int) 0 5 :=
  ⟨by decide,
   (claim_C9 (emptyFM : FM Int Int) (set_value (emptyFM : FM Int Int) 0 5) 0).1
     (by decide),
   by decide,
   (claim_C9 (emptyFM : FM Int Int) (set_value (emptyFM : FM Int Int) 0 5) 9).2
     (by decide)⟩

end FunctionMaxima
